import Mathlib

/-!
# Verification of the `byte-channel` flow-controlled byte channel

Shallow embedding of the final revision of the BuoyantIO `byte-channel-rs`
crate (`src/window.rs`, `src/buffer.rs`, `src/sync/{mod,chunk,sender,receiver,window}.rs`).

Conventions of the embedding:

* `usize` is modelled as `Nat` (all arithmetic in the source is checked
  addition/subtraction on `usize` with explicit guards; no wrapping occurs).
* `Bytes` is modelled as `List Nat`; `Bytes::split_off(n)` is `take n`/`drop n`
  (self keeps the first `n` bytes, the returned value is the tail), and
  `Bytes::split_to(n)` is the converse (the returned value is the first `n`
  bytes, self keeps the tail).
* A `futures::task::Task` waker is modelled as an opaque `Nat` identifier.
* A Rust `panic!` / `unreachable!` is modelled as `Option.none` in the result
  of the corresponding operation.
* Mutex-guarded shared cells become explicit state threading; the
  `Arc<Mutex<Option<_>>>` buffer cell becomes `Option (ChannelBuffer E)`.
* `Arc` strong-count peer detection (`ensure_peer`: `strong_count == 1`
  exactly when the other endpoint handle was dropped) is modelled by
  explicit `senderAlive` / `receiverAlive` booleans in the system state.
-/

namespace ByteChannel

/-- A byte buffer (`bytes::Bytes`): an immutable byte sequence. -/
abbrev Bytes := List Nat

/-- A parked task handle (`futures::task::Task`), identified opaquely. -/
abbrev Waker := Nat

/-! ## `src/window.rs`: the flow-control window -/

/-- `Window` (src/window.rs): pending / advertised / underflow accounting plus
the single parked waker slot (`blocked`). -/
structure Window where
  pending_increment : Nat
  advertised : Nat
  underflow : Nat
  blocked : Option Waker
deriving Repr, DecidableEq

/-- `Window::new(pending_increment)`. -/
def Window.new (pending : Nat) : Window :=
  { pending_increment := pending, advertised := 0, underflow := 0, blocked := none }

/-- `Window::advertise_increment(incr)` (src/window.rs lines 27-51).
Returns the updated window together with the waker that was taken and
notified, if any. -/
def Window.advertise_increment (w : Window) (incr : Nat) : Window × Option Waker :=
  if incr = 0 then (w, none)
  else if incr ≤ w.underflow then
    ({ w with underflow := w.underflow - incr }, none)
  else
    ({ w with underflow := 0,
              pending_increment := w.pending_increment + (incr - w.underflow),
              blocked := none },
     w.blocked)

/-- `Window::apply_increment` (src/window.rs lines 69-88). Returns the updated
window and `some incr` when a positive amount of space was added. -/
def Window.apply_increment (w : Window) : Window × Option Nat :=
  if w.pending_increment = 0 then (w, none)
  else
    let incr := w.pending_increment
    if w.underflow < incr then
      ({ w with pending_increment := 0,
                advertised := w.advertised + (incr - w.underflow),
                underflow := 0 },
       some (incr - w.underflow))
    else
      ({ w with pending_increment := 0, underflow := w.underflow - incr }, none)

/-- The condition checked by the `debug_assert_eq!(self.advertised, 0)` in the
`underflow >= incr` branch of `Window::apply_increment` (src/window.rs line 85):
whenever a positive pending increment is fully absorbed by the underflow, the
code asserts that nothing is currently advertised. -/
def Window.applyAssertHolds (w : Window) : Prop :=
  w.pending_increment ≠ 0 → w.pending_increment ≤ w.underflow → w.advertised = 0

instance (w : Window) : Decidable w.applyAssertHolds := by
  unfold Window.applyAssertHolds; infer_instance

/-- `Window::poll_increment` (src/window.rs lines 57-65): apply the pending
increment; when none is available, park the current task's waker. `some k`
models `Ok(Async::Ready(k))`, `none` models `Ok(Async::NotReady)`. -/
def Window.poll_increment (w : Window) (cur : Waker) : Window × Option Nat :=
  match w.apply_increment with
  | (w', some incr) => (w', some incr)
  | (w', none) => ({ w' with blocked := some cur }, none)

/-- `Window::claim_advertised(decr)` (src/window.rs lines 96-106).
`none` models the `panic!("illegal window underflow")`. -/
def Window.claim_advertised (w : Window) (decr : Nat) : Option Window :=
  if decr = 0 then some w
  else if w.advertised < decr then none
  else some { w with advertised := w.advertised - decr }

/-- `Window::shrink(decr)` (src/window.rs lines 118-120). -/
def Window.shrink (w : Window) (decr : Nat) : Window :=
  { w with underflow := w.underflow + decr }

/-! ## `src/sync/window.rs`: the `WindowAdvertiser` stream -/

/-- Result of one `WindowAdvertiser::poll` call:
`Ready(Some(k))`, `Ready(None)`, or `NotReady`. -/
inductive AdvPoll where
  | ready (k : Nat)
  | readyNone
  | notReady
deriving Repr, DecidableEq

/-- `WindowAdvertiser::poll` (src/sync/window.rs lines 25-47), written in the
source against the shared cell type `Arc<Mutex<Option<Window>>>`: when the cell
still holds a window, delegate to `poll_increment`; on `NotReady`, when the
advertiser is the only strong holder and no weak (Chunk) handles exist
(`orphaned`), clear the cell and end the stream. -/
def WindowAdvertiser.poll (window : Option Window) (orphaned : Bool) (cur : Waker) :
    AdvPoll × Option Window :=
  match window with
  | some w =>
    match w.poll_increment cur with
    | (w', some incr) => (AdvPoll.ready incr, some w')
    | (w', none) =>
      if !orphaned then (AdvPoll.notReady, some w')
      else (AdvPoll.readyNone, none)
  | none => (AdvPoll.readyNone, none)

/-! ## `src/sync/chunk.rs`: chunks of bytes handed to the reader -/

/-- `ChunkBytes` (src/sync/chunk.rs lines 73-80). -/
inductive ChunkBytes where
  | Zero
  | One (bytes : Bytes)
  | Many (remaining : Nat) (buffers : List Bytes)
deriving Repr, DecidableEq

/-- `Chunk` (src/sync/chunk.rs lines 46-49). The `window` field records
whether the weak window handle is present (`Some(Weak<..>)` in the source);
`chunk::empty()` is the only constructor that leaves it absent. -/
structure Chunk where
  bytes : ChunkBytes
  window : Bool
deriving Repr, DecidableEq

/-- `chunk::empty()` (src/sync/chunk.rs lines 7-12): no bytes and, in this
final revision, **no** weak window handle. -/
def Chunk.empty : Chunk := { bytes := ChunkBytes.Zero, window := false }

/-- `chunk::from_bytes(w, bytes)` (src/sync/chunk.rs lines 14-23). -/
def Chunk.from_bytes (bytes : Bytes) : Chunk :=
  if bytes.isEmpty then Chunk.empty
  else { bytes := ChunkBytes.One bytes, window := true }

/-- `chunk::from_vec(w, buffers)` (src/sync/chunk.rs lines 25-42). -/
def Chunk.from_vec (buffers : List Bytes) : Chunk :=
  match buffers with
  | [] => Chunk.empty
  | [b] => Chunk.from_bytes b
  | _ =>
    if buffers.foldl (fun sz b => sz + b.length) 0 = 0 then Chunk.empty
    else { bytes := ChunkBytes.Many (buffers.foldl (fun sz b => sz + b.length) 0) buffers,
           window := true }

/-- `Chunk::len` = `Buf::remaining` for `Chunk` (src/sync/chunk.rs lines
52-58 and 93-99): the total byte count the chunk reports. -/
def Chunk.len (c : Chunk) : Nat :=
  match c.bytes with
  | ChunkBytes.Zero => 0
  | ChunkBytes.One bytes => bytes.length
  | ChunkBytes.Many remaining _ => remaining

/-- `Buf::bytes` for `Chunk` (src/sync/chunk.rs lines 101-112): the contiguous
head slice. -/
def Chunk.headSlice (c : Chunk) : Bytes :=
  match c.bytes with
  | ChunkBytes.Zero => []
  | ChunkBytes.One bytes => bytes
  | ChunkBytes.Many _ buffers =>
    match buffers with
    | [] => []
    | bytes :: _ => bytes

/-- The actual byte sequence a chunk stores (concatenation of its buffers). -/
def Chunk.seq (c : Chunk) : Bytes :=
  match c.bytes with
  | ChunkBytes.Zero => []
  | ChunkBytes.One bytes => bytes
  | ChunkBytes.Many _ buffers => buffers.flatten

/-- The loop of the `ChunkBytes::Many` arm of `Buf::advance` (src/sync/chunk.rs
lines 149-175). Pops buffers off the front until `sz` is consumed. In the
"`sz < len`" arm the source computes `rest = bytes.split_to(sz)` — the *first*
`sz` bytes — drops `bytes` (now the tail) and pushes `rest` back, so the
embedding keeps `b.take sz` and discards `b.drop sz`. `none` models falling
out of the loop with bytes still owed (`panic!`). -/
def Chunk.advanceManyLoop : List Bytes → Nat → Option (List Bytes)
  | [], _ => none
  | b :: rest, sz =>
    if sz < b.length then some (b.take sz :: rest)
    else if sz - b.length = 0 then some rest
    else Chunk.advanceManyLoop rest (sz - b.length)

/-- `Buf::advance` for `Chunk` (src/sync/chunk.rs lines 114-179). Returns
`none` on `panic!("advance exceeds chunk size")`, otherwise the updated chunk
together with the amount passed to `Chunk::add_capacity` (0 when the window
handle is absent). In the `ChunkBytes::One` arm with `len == sz` the source
executes `drop(bytes)` where `bytes : &mut Bytes` — dropping the reference,
not the data — so the chunk's bytes are left unchanged there. -/
def Chunk.advance (c : Chunk) (sz : Nat) : Option (Chunk × Nat) :=
  if sz = 0 then some (c, 0)
  else
    match c.bytes with
    | ChunkBytes.Zero => none
    | ChunkBytes.One bytes =>
      if bytes.length < sz then none
      else
        some
          ({ c with
              bytes :=
                ChunkBytes.One (if bytes.length = sz then bytes else bytes.drop sz) },
           if c.window then sz else 0)
    | ChunkBytes.Many remaining buffers =>
      if remaining < sz then none
      else
        match Chunk.advanceManyLoop buffers sz with
        | none => none
        | some buffers' =>
          some ({ c with bytes := ChunkBytes.Many (remaining - sz) buffers' },
                if c.window then sz else 0)

/-- `Drop for Chunk` (src/sync/chunk.rs lines 82-90): the amount handed to
`Chunk::add_capacity` when the chunk is dropped (`self.len()` if the weak
window handle was still present, nothing otherwise). -/
def Chunk.dropCredit (c : Chunk) : Nat :=
  if c.window then c.len else 0

/-! ## `src/buffer.rs`: the shared channel buffer -/

/-- `ChannelBuffer<E>` (src/buffer.rs lines 9-27). -/
inductive ChannelBuffer (E : Type) where
  | Sending (len : Nat) (buffers : List Bytes) (awaiting_chunk : Option Waker)
  | SenderClosed (len : Nat) (buffers : List Bytes)
  | SenderFailed (e : E)
  | LostReceiver
deriving Repr, DecidableEq

/-- `ChannelBuffer::default()` (src/buffer.rs lines 29-37). -/
def ChannelBuffer.default (E : Type) : ChannelBuffer E :=
  ChannelBuffer.Sending 0 [] none

/-- `ChannelBuffer::len` (src/buffer.rs lines 40-47). -/
def ChannelBuffer.len {E : Type} : ChannelBuffer E → Nat
  | ChannelBuffer.Sending l _ _ => l
  | ChannelBuffer.SenderClosed l _ => l
  | _ => 0

/-- The length reported for the shared `Option<ChannelBuffer<E>>` cell
(`unwrap_or(0)` in the handles). -/
def bufferLen {E : Type} : Option (ChannelBuffer E) → Nat
  | none => 0
  | some b => b.len

/-- The queue of the shared buffer cell (empty once the cell is cleared or in
a terminal state). -/
def bufferQueue {E : Type} : Option (ChannelBuffer E) → List Bytes
  | some (ChannelBuffer.Sending _ q _) => q
  | some (ChannelBuffer.SenderClosed _ q) => q
  | _ => []

/-! ## `src/sync/mod.rs` helpers -/

/-- `return_buffer_to_window` (src/sync/mod.rs lines 33-39, and the identical
`ByteSender::return_buffer_to_window`, src/sync/sender.rs lines 37-46): give
the queued byte count of the buffer cell back to the window. -/
def return_buffer_to_window {E : Type} (buffer : Option (ChannelBuffer E)) (w : Window) :
    Window :=
  let sz := bufferLen buffer
  if sz = 0 then w else (w.advertise_increment sz).1

/-! ## `src/sync/receiver.rs`: the pull side -/

/-- Result of `ByteReceiver::poll_chunk`:
`Ready(Some(chunk))`, `Ready(None)`, `NotReady`, or `Err(e)`. -/
inductive PollChunk (E : Type) where
  | readyChunk (c : Chunk)
  | readyNone
  | notReady
  | err (e : E)
deriving Repr, DecidableEq

/-- The loop of `ByteReceiver::assemble_chunk` (src/sync/receiver.rs lines
125-141): slice `sz` bytes off the head of the queue, splitting the last
buffer with `split_off` when it overhangs. Returns the popped buffers and the
remaining queue. -/
def assembleLoop : List Bytes → Nat → List Bytes × List Bytes
  | buffers, 0 => ([], buffers)
  | [], _ + 1 => ([], [])
  | b :: rest, sz + 1 =>
    if sz + 1 < b.length then ([b.take (sz + 1)], b.drop (sz + 1) :: rest)
    else (b :: (assembleLoop rest (sz + 1 - b.length)).1,
          (assembleLoop rest (sz + 1 - b.length)).2)

/-- `ByteReceiver::assemble_chunk` (src/sync/receiver.rs lines 120-143). -/
def ByteReceiver.assemble_chunk (buffers : List Bytes) (sz : Nat) :
    Chunk × List Bytes :=
  (Chunk.from_vec (assembleLoop buffers sz).1, (assembleLoop buffers sz).2)

/-- `ByteReceiver::poll_chunk` (src/sync/receiver.rs lines 42-118), acting on
the shared `Option<ChannelBuffer<E>>` cell. `none` models the `unreachable!()`
hit in the `LostReceiver` arm; otherwise the result and the new cell contents
are returned. The `SenderFailed` arm returns after `take()`, leaving the cell
cleared. -/
def ByteReceiver.poll_chunk {E : Type} (buffer : Option (ChannelBuffer E))
    (max_sz : Nat) (cur : Waker) :
    Option (PollChunk E × Option (ChannelBuffer E)) :=
  if max_sz = 0 then some (PollChunk.readyChunk Chunk.empty, buffer)
  else
    match buffer with
    | none => some (PollChunk.readyNone, none)
    | some ChannelBuffer.LostReceiver => none
    | some (ChannelBuffer.SenderFailed e) => some (PollChunk.err e, none)
    | some (ChannelBuffer.Sending len buffers _) =>
      if len = 0 then
        some (PollChunk.notReady,
              some (ChannelBuffer.Sending len buffers (some cur)))
      else
        some (PollChunk.readyChunk
                (ByteReceiver.assemble_chunk buffers (min len max_sz)).1,
              some (ChannelBuffer.Sending (len - min len max_sz)
                (ByteReceiver.assemble_chunk buffers (min len max_sz)).2 none))
    | some (ChannelBuffer.SenderClosed len buffers) =>
      if len = 0 then some (PollChunk.readyNone, none)
      else
        some (PollChunk.readyChunk
                (ByteReceiver.assemble_chunk buffers (min len max_sz)).1,
              if len - min len max_sz = 0 then none
              else some (ChannelBuffer.SenderClosed (len - min len max_sz)
                (ByteReceiver.assemble_chunk buffers (min len max_sz)).2))

/-- `Drop for ByteReceiver` (src/sync/receiver.rs lines 27-38). The source
first `take()`s the cell, then calls `return_buffer_to_window` on the
*already emptied* cell (so no credit is actually returned), then writes
`LostReceiver`. -/
def ByteReceiver.dropReceiver {E : Type} (buffer : Option (ChannelBuffer E))
    (w : Window) : Option (ChannelBuffer E) × Window :=
  match buffer with
  | none => (none, w)
  | some _ =>
    ((some ChannelBuffer.LostReceiver : Option (ChannelBuffer E)),
     return_buffer_to_window (none : Option (ChannelBuffer E)) w)

/-! ## `src/sync/sender.rs`: the push side

`src/sync/sender.rs` is written against the previous revision's names
(`ChannelBuffer::Buffering`/`Draining`/`Failed` for `Sending`/`SenderClosed`/
`SenderFailed`, `Window::available`/`decrement` for
`Window::advertised`/`claim_advertised`, and `ensure_peer` — defined in
`src/sync.rs` as `Arc::strong_count == 1`, i.e. the peer handle was dropped).
The embedding uses the final revision's types with that renaming, and models
`ensure_peer` by the explicit `receiverAlive` flag. -/

/-- Outcome of `ByteSender::push_bytes`. -/
inductive PushOutcome where
  | ok
  | errLostPeer
  | panicOverflow
  | panicIllegalState
deriving Repr, DecidableEq

/-- `ByteSender::push_bytes` (src/sync/sender.rs lines 101-139). Returns the
outcome, the new buffer cell, the new window, and the `awaiting_chunk` waker
taken and notified (success path only). -/
def ByteSender.push_bytes {E : Type} (receiverAlive : Bool)
    (buffer : Option (ChannelBuffer E)) (w : Window) (bytes : Bytes) :
    PushOutcome × Option (ChannelBuffer E) × Window × Option Waker :=
  if !receiverAlive then
    (PushOutcome.errLostPeer, none, return_buffer_to_window buffer w, none)
  else
    match buffer with
    | some (ChannelBuffer.Sending len buffers awaiting) =>
      if bytes.length ≤ w.advertised then
        (PushOutcome.ok,
         some (ChannelBuffer.Sending (len + bytes.length) (buffers ++ [bytes]) none),
         (w.claim_advertised bytes.length).getD w,
         awaiting)
      else (PushOutcome.panicOverflow, buffer, w, none)
    | _ => (PushOutcome.panicIllegalState, buffer, w, none)

/-- `ByteSender::do_close` (src/sync/sender.rs lines 61-94), shared by
`close()` and `Drop`. Returns the new buffer cell, window, and the notified
`awaiting_chunk` waker if any. -/
def ByteSender.do_close {E : Type} (receiverAlive : Bool)
    (buffer : Option (ChannelBuffer E)) (w : Window) :
    Option (ChannelBuffer E) × Window × Option Waker :=
  if !receiverAlive then
    (none, return_buffer_to_window buffer w, none)
  else
    match buffer with
    | some (ChannelBuffer.Sending len buffers awaiting) =>
      (some (ChannelBuffer.SenderClosed len buffers), w, awaiting)
    | other => (other, w, none)

/-! ## The whole channel as a state machine

One state for the channel (`sync::new`, src/sync/mod.rs lines 19-27) plus the
live chunks handed out by the receiver and ghost accounting used to state the
spec's trace properties (`pushed`, `yielded`, advertiser-`delivered` total,
total `shrunk`). -/

/-- The complete channel state. -/
structure Sys (E : Type) where
  window : Window
  buffer : Option (ChannelBuffer E)
  chunks : List Chunk
  senderAlive : Bool
  receiverAlive : Bool
  pushed : List Bytes
  yielded : List Bytes
  delivered : Nat
  shrunk : Nat
deriving Repr, DecidableEq

/-- `sync::new(initial_window_size)` (src/sync/mod.rs lines 19-27). -/
def Sys.start (E : Type) (n : Nat) : Sys E :=
  { window := Window.new n
    buffer := some (ChannelBuffer.default E)
    chunks := []
    senderAlive := true
    receiverAlive := true
    pushed := []
    yielded := []
    delivered := 0
    shrunk := 0 }

/-- One channel operation, invoked through one of the public handles. -/
inductive Op (E : Type) where
  | push (b : Bytes)
  | pollChunk (maxSz : Nat) (cur : Waker)
  | advPoll (cur : Waker)
  | advanceChunk (i n : Nat)
  | dropChunk (i : Nat)
  | shrinkWin (n : Nat)
  | closeSender
  | resetSender (e : E)
  | dropReceiver
deriving Repr, DecidableEq

/-- Execute one operation. `none` models a `panic!`/`unreachable!` or a call
on an already-consumed handle (the Rust type system rules those out
statically: `close`/`reset` consume the sender, `Drop` runs once, a dropped
receiver can no longer be polled, a chunk index must denote a live chunk). -/
def step {E : Type} (s : Sys E) : Op E → Option (Sys E)
  | Op.push b =>
    if !s.senderAlive then none
    else
      match ByteSender.push_bytes s.receiverAlive s.buffer s.window b with
      | (PushOutcome.ok, buffer', w', _) =>
        some { s with buffer := buffer', window := w', pushed := s.pushed ++ [b] }
      | (PushOutcome.errLostPeer, buffer', w', _) =>
        some { s with buffer := buffer', window := w' }
      | (_, _, _, _) => none
  | Op.pollChunk maxSz cur =>
    if !s.receiverAlive then none
    else
      match ByteReceiver.poll_chunk s.buffer maxSz cur with
      | none => none
      | some (PollChunk.readyChunk c, buffer') =>
        some { s with buffer := buffer', chunks := s.chunks ++ [c],
                      yielded := s.yielded ++ [c.seq] }
      | some (_, buffer') => some { s with buffer := buffer' }
  | Op.advPoll cur =>
    match s.window.poll_increment cur with
    | (w', some k) => some { s with window := w', delivered := s.delivered + k }
    | (w', none) => some { s with window := w' }
  | Op.advanceChunk i n =>
    match s.chunks[i]? with
    | none => none
    | some c =>
      match c.advance n with
      | none => none
      | some (c', cap) =>
        some { s with chunks := s.chunks.set i c',
                      window := (s.window.advertise_increment cap).1 }
  | Op.dropChunk i =>
    match s.chunks[i]? with
    | none => none
    | some c =>
      some { s with chunks := s.chunks.eraseIdx i,
                    window := (s.window.advertise_increment c.dropCredit).1 }
  | Op.shrinkWin n =>
    if !s.receiverAlive then none
    else some { s with window := s.window.shrink n, shrunk := s.shrunk + n }
  | Op.closeSender =>
    if !s.senderAlive then none
    else
      match ByteSender.do_close s.receiverAlive s.buffer s.window with
      | (buffer', w', _) =>
        some { s with buffer := buffer', window := w', senderAlive := false }
  | Op.resetSender e =>
    if !s.senderAlive then none
    else
      some { s with buffer := some (ChannelBuffer.SenderFailed e),
                    window := return_buffer_to_window s.buffer s.window,
                    senderAlive := false }
  | Op.dropReceiver =>
    if !s.receiverAlive then none
    else
      match ByteReceiver.dropReceiver s.buffer s.window with
      | (buffer', w') =>
        some { s with buffer := buffer', window := w', receiverAlive := false }

/-- States reachable from `s₀` by legal operations satisfying a side
condition `P` on (state, operation). -/
inductive Reach {E : Type} (P : Sys E → Op E → Prop) : Sys E → Sys E → Prop where
  | refl (s : Sys E) : Reach P s s
  | tail {s₀ s₁ s₂ : Sys E} {op : Op E} :
      Reach P s₀ s₁ → P s₁ op → step s₁ op = some s₂ → Reach P s₀ s₂

/-- No side condition: every legal operation. -/
def AnyOp {E : Type} (_ : Sys E) (_ : Op E) : Prop := True

/-- Run a whole sequence of operations. -/
def run {E : Type} (s : Sys E) : List (Op E) → Option (Sys E)
  | [] => some s
  | op :: ops =>
    match step s op with
    | none => none
    | some s' => run s' ops

/-- The credit currently held inside the window (delivered to the sender or
staged for delivery). -/
def windowCore (w : Window) : Nat := w.advertised + w.pending_increment

/-- Total byte count reported by the live chunks. -/
def chunksTotal {E : Type} (s : Sys E) : Nat := (s.chunks.map Chunk.len).sum

/-- The quantity the credit-conservation property is about: advertised +
pending credit in the window plus bytes queued in the buffer plus bytes
remaining in live chunks. -/
def creditTotal {E : Type} (s : Sys E) : Nat :=
  windowCore s.window + bufferLen s.buffer + chunksTotal s

/-- Detects the one `Chunk::advance` call that breaks credit accounting:
advancing a `ChunkBytes::One` chunk (with a live window handle) by exactly
its full length, where the source's `drop(bytes)` drops a `&mut` reference
instead of the bytes. -/
def badAdvanceB {E : Type} (s : Sys E) (i n : Nat) : Bool :=
  match s.chunks[i]? with
  | some { bytes := ChunkBytes.One b, window := true } => n = b.length && n ≠ 0
  | _ => false

/-- The operations claim C1 ranges over: push_bytes, poll_chunk, chunk
advance/drop, shrink, advertise/poll increment — excluding the one Chunk
advance call whose accounting the source gets wrong. -/
def C1Allowed {E : Type} (s : Sys E) : Op E → Prop
  | Op.push _ => True
  | Op.pollChunk _ _ => True
  | Op.advPoll _ => True
  | Op.shrinkWin _ => True
  | Op.dropChunk _ => True
  | Op.advanceChunk i n => badAdvanceB s i n = false
  | _ => False

/-- Operation sequences that never shrink the window. -/
def NoShrinkOp {E : Type} (_ : Sys E) : Op E → Prop
  | Op.shrinkWin _ => False
  | _ => True

/-- Operation sequences without reset, close or peer loss (pushes, chunk
polls, and the credit operations), as in the round-trip property. -/
def PushPollOp {E : Type} (_ : Sys E) : Op E → Prop
  | Op.closeSender => False
  | Op.resetSender _ => False
  | Op.dropReceiver => False
  | _ => True

/-- Inductive invariant behind the (corrected) credit-conservation property:
the credit total plus the total shrunk equals the initial window size plus
the current underflow (equivalently, `creditTotal = n - shrinks consumed`),
the buffer's `len` field agrees with its queue, and window-less chunks are
empty. -/
def ConservationInv {E : Type} (n : Nat) (s : Sys E) : Prop :=
  creditTotal s + s.shrunk = n + s.window.underflow ∧
  s.window.underflow ≤ s.shrunk ∧
  bufferLen s.buffer = (bufferQueue s.buffer).flatten.length ∧
  ∀ c ∈ s.chunks, c.window = false → c.len = 0

/-- Inductive invariant behind the round-trip property: the bytes yielded to
the reader so far plus the bytes still queued are exactly the bytes pushed,
and the buffer's `len` field agrees with its queue. -/
def RoundTripInv {E : Type} (s : Sys E) : Prop :=
  s.yielded.flatten ++ (bufferQueue s.buffer).flatten = s.pushed.flatten ∧
  bufferLen s.buffer = (bufferQueue s.buffer).flatten.length ∧
  s.receiverAlive = true

/-- While both handles are live the buffer cell is in the `Sending` state. -/
def SenderSeesSending {E : Type} (s : Sys E) : Prop :=
  s.senderAlive = true → s.receiverAlive = true →
    ∃ l q a, s.buffer = some (ChannelBuffer.Sending l q a)

/-- A terminally-read channel: the buffer cell is destroyed and the sender is
gone, so nothing can ever repopulate it. -/
def Dead {E : Type} (s : Sys E) : Prop :=
  s.buffer = none ∧ s.senderAlive = false

/-- A live receiver never faces the `LostReceiver` state. -/
def NoLostRecv {E : Type} (s : Sys E) : Prop :=
  s.receiverAlive = true → s.buffer ≠ some ChannelBuffer.LostReceiver

/-! ## Helper lemmas about the window operations -/

theorem apply_increment_of_zero {w : Window} (h : w.pending_increment = 0) :
    w.apply_increment = (w, none) := by
  simp [Window.apply_increment, h]

theorem apply_increment_of_lt {w : Window} (h0 : w.pending_increment ≠ 0)
    (h : w.underflow < w.pending_increment) :
    w.apply_increment =
      ({ w with pending_increment := 0,
                advertised := w.advertised + (w.pending_increment - w.underflow),
                underflow := 0 },
       some (w.pending_increment - w.underflow)) := by
  simp [Window.apply_increment, h0, h]

theorem apply_increment_of_ge {w : Window} (h0 : w.pending_increment ≠ 0)
    (h : w.pending_increment ≤ w.underflow) :
    w.apply_increment =
      ({ w with pending_increment := 0,
                underflow := w.underflow - w.pending_increment }, none) := by
  have h' : ¬ w.underflow < w.pending_increment := by omega
  simp [Window.apply_increment, h0, h']

theorem apply_increment_ready_pos {w w' : Window} {k : Nat}
    (h : w.apply_increment = (w', some k)) : 0 < k := by
  by_cases h0 : w.pending_increment = 0
  · rw [apply_increment_of_zero h0] at h; simp at h
  · by_cases h1 : w.underflow < w.pending_increment
    · rw [apply_increment_of_lt h0 h1] at h
      have : w.pending_increment - w.underflow = k := by
        simpa using congrArg (fun p => p.2) h
      omega
    · rw [apply_increment_of_ge h0 (by omega)] at h; simp at h

theorem poll_increment_ready_pos {w w' : Window} {cur : Waker} {k : Nat}
    (h : w.poll_increment cur = (w', some k)) : 0 < k := by
  unfold Window.poll_increment at h
  rcases ha : w.apply_increment with ⟨wa, r⟩
  cases r with
  | none => rw [ha] at h; simp at h
  | some incr =>
    rw [ha] at h
    simp at h
    exact h.2 ▸ apply_increment_ready_pos ha

/-! ## Accounting lemmas for the window operations -/

theorem advertise_increment_balance (w : Window) (incr : Nat) :
    windowCore (w.advertise_increment incr).1 + min incr w.underflow
      = windowCore w + incr ∧
    (w.advertise_increment incr).1.underflow + min incr w.underflow = w.underflow := by
  unfold Window.advertise_increment windowCore
  by_cases h0 : incr = 0
  · subst h0; simp
  · by_cases h1 : incr ≤ w.underflow
    · simp only [h0, if_false, ite_false, if_pos h1]
      exact ⟨by omega, by omega⟩
    · simp only [h0, if_false, ite_false, if_neg h1]
      exact ⟨by omega, by omega⟩

theorem advertise_increment_advertised (w : Window) (incr : Nat) :
    (w.advertise_increment incr).1.advertised = w.advertised := by
  unfold Window.advertise_increment
  by_cases h0 : incr = 0
  · simp [h0]
  · by_cases h1 : incr ≤ w.underflow <;> simp [h0, h1]

theorem poll_increment_balance (w : Window) (cur : Waker) :
    windowCore (w.poll_increment cur).1 + min w.pending_increment w.underflow
      = windowCore w ∧
    (w.poll_increment cur).1.underflow + min w.pending_increment w.underflow
      = w.underflow := by
  unfold Window.poll_increment
  by_cases h0 : w.pending_increment = 0
  · rw [apply_increment_of_zero h0]
    simp [windowCore]
    omega
  · by_cases h1 : w.underflow < w.pending_increment
    · rw [apply_increment_of_lt h0 h1]
      simp [windowCore]
      constructor <;> omega
    · rw [apply_increment_of_ge h0 (by omega)]
      simp [windowCore]
      constructor <;> omega

theorem claim_advertised_getD (w : Window) (n : Nat) (h : n ≤ w.advertised) :
    (w.claim_advertised n).getD w = { w with advertised := w.advertised - n } := by
  unfold Window.claim_advertised
  by_cases h0 : n = 0
  · subst h0; simp
  · have h1 : ¬ w.advertised < n := by omega
    simp [h0, h1]

theorem shrink_fields (w : Window) (n : Nat) :
    (w.shrink n).underflow = w.underflow + n ∧ windowCore (w.shrink n) = windowCore w := by
  simp [Window.shrink, windowCore]

theorem return_buffer_balance {E : Type} (buffer : Option (ChannelBuffer E)) (w : Window) :
    windowCore (return_buffer_to_window buffer w) + min (bufferLen buffer) w.underflow
      = windowCore w + bufferLen buffer ∧
    (return_buffer_to_window buffer w).underflow + min (bufferLen buffer) w.underflow
      = w.underflow := by
  unfold return_buffer_to_window
  by_cases h : bufferLen buffer = 0
  · simp [h]
  · simp only [h, if_false, ite_false]
    exact advertise_increment_balance w _

/-! ## List accounting lemmas -/

theorem foldl_add_length (bs : List Bytes) (a : Nat) :
    bs.foldl (fun sz b => sz + b.length) a = a + (bs.map List.length).sum := by
  induction bs generalizing a with
  | nil => simp
  | cons b rest ih => simp only [List.foldl_cons, ih, List.map_cons, List.sum_cons]; omega

theorem assembleLoop_take_drop (bs : List Bytes) (sz : Nat) :
    (assembleLoop bs sz).1.flatten = bs.flatten.take sz ∧
    (assembleLoop bs sz).2.flatten = bs.flatten.drop sz := by
  induction bs generalizing sz with
  | nil => cases sz <;> simp [assembleLoop]
  | cons b rest ih =>
    cases sz with
    | zero => simp [assembleLoop]
    | succ m =>
      by_cases hlt : m + 1 < b.length
      · have hz : m + 1 - b.length = 0 := by omega
        simp only [assembleLoop, if_pos hlt]
        constructor
        · simp [List.take_append_eq_append_take, hz]
        · simp [List.drop_append_eq_append_drop, hz]
      · have hble : b.length ≤ m + 1 := by omega
        simp only [assembleLoop, if_neg hlt]
        rcases ih (m + 1 - b.length) with ⟨ih1, ih2⟩
        constructor
        · simp [ih1, List.take_append_eq_append_take, List.take_of_length_le hble]
        · simp [ih2, List.drop_append_eq_append_drop, List.drop_of_length_le hble]

theorem flatten_of_foldl_zero (cs : List Bytes)
    (hr : cs.foldl (fun sz b => sz + b.length) 0 = 0) : cs.flatten = [] := by
  have hfold := foldl_add_length cs 0
  apply List.eq_nil_of_length_eq_zero
  rw [List.length_flatten]
  omega

theorem from_vec_seq (cs : List Bytes) : (Chunk.from_vec cs).seq = cs.flatten := by
  match cs with
  | [] => simp [Chunk.from_vec, Chunk.empty, Chunk.seq]
  | [b] =>
    by_cases hb : b.isEmpty
    · have hbn : b = [] := by simpa [List.isEmpty_iff] using hb
      subst hbn
      simp [Chunk.from_vec, Chunk.from_bytes, Chunk.empty, Chunk.seq]
    · simp [Chunk.from_vec, Chunk.from_bytes, hb, Chunk.seq]
  | b :: b2 :: rest =>
    by_cases hr : (b :: b2 :: rest).foldl (fun sz x => sz + x.length) 0 = 0
    · have hnil := flatten_of_foldl_zero _ hr
      rw [hnil]
      simp only [Chunk.from_vec, if_pos hr]
      simp [Chunk.empty, Chunk.seq]
    · simp only [Chunk.from_vec, if_neg hr]
      simp [Chunk.seq]

theorem from_vec_len (cs : List Bytes) : (Chunk.from_vec cs).len = cs.flatten.length := by
  match cs with
  | [] => simp [Chunk.from_vec, Chunk.empty, Chunk.len]
  | [b] =>
    by_cases hb : b.isEmpty
    · have hbn : b = [] := by simpa [List.isEmpty_iff] using hb
      subst hbn
      simp [Chunk.from_vec, Chunk.from_bytes, Chunk.empty, Chunk.len]
    · simp [Chunk.from_vec, Chunk.from_bytes, hb, Chunk.len]
  | b :: b2 :: rest =>
    have hfold := foldl_add_length (b :: b2 :: rest) 0
    by_cases hr : (b :: b2 :: rest).foldl (fun sz x => sz + x.length) 0 = 0
    · have hnil := flatten_of_foldl_zero _ hr
      rw [hnil]
      simp only [Chunk.from_vec, if_pos hr]
      simp [Chunk.empty, Chunk.len]
    · simp only [Chunk.from_vec, if_neg hr]
      simp only [Chunk.len, List.length_flatten]
      omega

theorem from_vec_flag (cs : List Bytes) :
    (Chunk.from_vec cs).window = false → (Chunk.from_vec cs).len = 0 := by
  match cs with
  | [] => intro _; simp [Chunk.from_vec, Chunk.empty, Chunk.len]
  | [b] =>
    by_cases hb : b.isEmpty
    · intro _
      have hbn : b = [] := by simpa [List.isEmpty_iff] using hb
      subst hbn
      simp [Chunk.from_vec, Chunk.from_bytes, Chunk.empty, Chunk.len]
    · simp [Chunk.from_vec, Chunk.from_bytes, hb]
  | b :: b2 :: rest =>
    by_cases hr : (b :: b2 :: rest).foldl (fun sz x => sz + x.length) 0 = 0
    · intro _
      simp only [Chunk.from_vec, if_pos hr]
      simp [Chunk.empty, Chunk.len]
    · simp only [Chunk.from_vec, if_neg hr]
      simp

theorem sum_map_len_set (l : List Chunk) (i : Nat) (c c' : Chunk)
    (h : l[i]? = some c) :
    ((l.set i c').map Chunk.len).sum + c.len = (l.map Chunk.len).sum + c'.len := by
  induction l generalizing i with
  | nil => simp at h
  | cons x xs ih =>
    cases i with
    | zero =>
      simp only [List.getElem?_cons_zero, Option.some.injEq] at h
      subst h
      simp [List.set]
      omega
    | succ j =>
      simp only [List.getElem?_cons_succ] at h
      have := ih j h
      simp only [List.set, List.map_cons, List.sum_cons]
      omega

theorem sum_map_len_eraseIdx (l : List Chunk) (i : Nat) (c : Chunk)
    (h : l[i]? = some c) :
    ((l.eraseIdx i).map Chunk.len).sum + c.len = (l.map Chunk.len).sum := by
  induction l generalizing i with
  | nil => simp at h
  | cons x xs ih =>
    cases i with
    | zero =>
      simp only [List.getElem?_cons_zero, Option.some.injEq] at h
      subst h
      simp [List.eraseIdx]
      omega
    | succ j =>
      simp only [List.getElem?_cons_succ] at h
      have := ih j h
      simp only [List.eraseIdx, List.map_cons, List.sum_cons]
      omega

/-! ## Chunk advance accounting -/

theorem advance_window_flag {c c' : Chunk} {n cap : Nat}
    (h : c.advance n = some (c', cap)) : c'.window = c.window := by
  unfold Chunk.advance at h
  split at h
  · simp at h; rw [← h.1]
  · split at h
    · simp at h
    · split at h
      · simp at h
      · simp at h; rw [← h.1]
    · split at h
      · simp at h
      · split at h
        · simp at h
        · simp at h; rw [← h.1]

/-- Accounting of a non-degenerate `advance`: unless the call hits the
`One`-chunk full-length bug, the reported length drops by the credit amount
handed back (for a chunk with a live window handle). -/
theorem advance_balance {c c' : Chunk} {n cap : Nat}
    (hflag : c.window = false → c.len = 0)
    (hnotbad : ¬ (∃ b, c.bytes = ChunkBytes.One b ∧ n = b.length ∧ n ≠ 0 ∧
      c.window = true))
    (h : c.advance n = some (c', cap)) :
    c'.len + cap = c.len := by
  unfold Chunk.advance at h
  split at h
  · simp only [Option.some.injEq, Prod.mk.injEq] at h
    rw [← h.1, ← h.2]
    omega
  · rename_i hn
    split at h
    · simp at h
    · rename_i b hb
      split at h
      · simp at h
      · rename_i hge
        simp only [Option.some.injEq, Prod.mk.injEq] at h
        cases hw : c.window with
        | false =>
          have hc0 : c.len = 0 := hflag hw
          simp only [Chunk.len, hb] at hc0
          omega
        | true =>
          by_cases heq : b.length = n
          · exact absurd ⟨b, hb, heq.symm, hn, hw⟩ hnotbad
          · rw [← h.1, ← h.2]
            simp only [Chunk.len, hb, if_neg heq, hw, if_true, ite_true,
              List.length_drop]
            omega
    · rename_i r bs hb
      split at h
      · simp at h
      · rename_i hge
        split at h
        · simp at h
        · rename_i bs' hloop
          simp only [Option.some.injEq, Prod.mk.injEq] at h
          cases hw : c.window with
          | false =>
            have hc0 : c.len = 0 := hflag hw
            simp only [Chunk.len, hb] at hc0
            omega
          | true =>
            rw [← h.1, ← h.2]
            simp only [Chunk.len, hb, hw, if_true, ite_true]
            omega

theorem advance_flag_preserved {c c' : Chunk} {n cap : Nat}
    (hflag : c.window = false → c.len = 0)
    (h : c.advance n = some (c', cap)) :
    c'.window = false → c'.len = 0 := by
  intro hw'
  have hwc := advance_window_flag h
  have hw : c.window = false := by rw [← hwc]; exact hw'
  have hc0 := hflag hw
  unfold Chunk.advance at h
  split at h
  · simp only [Option.some.injEq, Prod.mk.injEq] at h
    rw [← h.1]
    exact hc0
  · rename_i hn
    split at h
    · simp at h
    · rename_i b hb
      simp only [Chunk.len, hb] at hc0
      split at h
      · simp at h
      · rename_i hge
        omega
    · rename_i r bs hb
      simp only [Chunk.len, hb] at hc0
      split at h
      · simp at h
      · rename_i hge
        omega

theorem badAdvanceB_of_false {E : Type} {s : Sys E} {i n : Nat} {c : Chunk}
    (hc : s.chunks[i]? = some c) (hb : badAdvanceB s i n = false) :
    ¬ (∃ b, c.bytes = ChunkBytes.One b ∧ n = b.length ∧ n ≠ 0 ∧
      c.window = true) := by
  rintro ⟨b, hcb, hn, hn0, hw⟩
  unfold badAdvanceB at hb
  rw [hc] at hb
  obtain ⟨cb, cw⟩ := c
  simp only at hcb hw
  subst hcb
  subst hw
  simp only at hb
  simp [hn, hn0] at hb
  subst hb
  simp at hn
  exact hn0 hn

theorem push_bytes_eq_ok {E : Type} {ra : Bool} {buffer : Option (ChannelBuffer E)}
    {w : Window} {bytes : Bytes} {b' : Option (ChannelBuffer E)} {w' : Window}
    {t : Option Waker}
    (h : ByteSender.push_bytes ra buffer w bytes = (PushOutcome.ok, b', w', t)) :
    ∃ l q a, ra = true ∧ buffer = some (ChannelBuffer.Sending l q a) ∧
      bytes.length ≤ w.advertised ∧
      b' = some (ChannelBuffer.Sending (l + bytes.length) (q ++ [bytes]) none) ∧
      w' = (w.claim_advertised bytes.length).getD w ∧ t = a := by
  unfold ByteSender.push_bytes at h
  split at h
  · simp at h
  · rename_i hra
    split at h
    · rename_i l q a
      split at h
      · rename_i hle
        simp at h
        exact ⟨l, q, a, by simpa using hra, rfl, hle, h.1.symm, h.2.1.symm, h.2.2.symm⟩
      · simp at h
    · simp at h

theorem push_bytes_eq_err {E : Type} {ra : Bool} {buffer : Option (ChannelBuffer E)}
    {w : Window} {bytes : Bytes} {b' : Option (ChannelBuffer E)} {w' : Window}
    {t : Option Waker}
    (h : ByteSender.push_bytes ra buffer w bytes = (PushOutcome.errLostPeer, b', w', t)) :
    ra = false ∧ b' = none ∧ w' = return_buffer_to_window buffer w ∧ t = none := by
  unfold ByteSender.push_bytes at h
  split at h
  · rename_i hra
    simp at h
    exact ⟨by simpa using hra, h.1.symm, h.2.1.symm, h.2.2.symm⟩
  · split at h
    · split at h <;> simp at h
    · simp at h

/-- Case analysis of `ByteReceiver::poll_chunk` when it does not panic. -/
theorem poll_chunk_cases {E : Type} {buffer : Option (ChannelBuffer E)} {m cur : Nat}
    {r : PollChunk E} {b' : Option (ChannelBuffer E)}
    (h : ByteReceiver.poll_chunk buffer m cur = some (r, b')) :
    (m = 0 ∧ r = PollChunk.readyChunk Chunk.empty ∧ b' = buffer) ∨
    (m ≠ 0 ∧ buffer = none ∧ r = PollChunk.readyNone ∧ b' = none) ∨
    (∃ e, m ≠ 0 ∧ buffer = some (ChannelBuffer.SenderFailed e) ∧
      r = PollChunk.err e ∧ b' = none) ∨
    (∃ q a, m ≠ 0 ∧ buffer = some (ChannelBuffer.Sending 0 q a) ∧
      r = PollChunk.notReady ∧ b' = some (ChannelBuffer.Sending 0 q (some cur))) ∨
    (∃ l q a, m ≠ 0 ∧ buffer = some (ChannelBuffer.Sending l q a) ∧ l ≠ 0 ∧
      r = PollChunk.readyChunk (ByteReceiver.assemble_chunk q (min l m)).1 ∧
      b' = some (ChannelBuffer.Sending (l - min l m)
        (ByteReceiver.assemble_chunk q (min l m)).2 none)) ∨
    (∃ q, m ≠ 0 ∧ buffer = some (ChannelBuffer.SenderClosed 0 q) ∧
      r = PollChunk.readyNone ∧ b' = none) ∨
    (∃ l q, m ≠ 0 ∧ buffer = some (ChannelBuffer.SenderClosed l q) ∧ l ≠ 0 ∧
      r = PollChunk.readyChunk (ByteReceiver.assemble_chunk q (min l m)).1 ∧
      b' = (if l - min l m = 0 then none
            else some (ChannelBuffer.SenderClosed (l - min l m)
              (ByteReceiver.assemble_chunk q (min l m)).2))) := by
  unfold ByteReceiver.poll_chunk at h
  split at h
  · rename_i hm
    simp at h
    exact Or.inl ⟨hm, h.1.symm, h.2.symm⟩
  · rename_i hm
    split at h
    · simp at h
      exact Or.inr (Or.inl ⟨hm, rfl, h.1.symm, h.2.symm⟩)
    · simp at h
    · rename_i e
      simp at h
      exact Or.inr (Or.inr (Or.inl ⟨e, hm, rfl, h.1.symm, h.2.symm⟩))
    · rename_i l q a
      split at h
      · rename_i hl
        subst hl
        simp at h
        exact Or.inr (Or.inr (Or.inr (Or.inl ⟨q, a, hm, rfl, h.1.symm, h.2.symm⟩)))
      · rename_i hl
        simp at h
        refine Or.inr (Or.inr (Or.inr (Or.inr (Or.inl
          ⟨l, q, a, hm, rfl, hl, h.1.symm, h.2.symm⟩))))
    · rename_i l q
      split at h
      · rename_i hl
        subst hl
        simp at h
        exact Or.inr (Or.inr (Or.inr (Or.inr (Or.inr (Or.inl
          ⟨q, hm, rfl, h.1.symm, h.2.symm⟩)))))
      · rename_i hl
        simp at h
        refine Or.inr (Or.inr (Or.inr (Or.inr (Or.inr (Or.inr
          ⟨l, q, hm, rfl, hl, h.1.symm, h.2.symm⟩)))))

/-! ## Characterizations of the step relation, one operation at a time -/

theorem step_push_cases {E : Type} {s s' : Sys E} {b : Bytes}
    (h : step s (Op.push b) = some s') :
    (s.senderAlive = true ∧ s.receiverAlive = false ∧
      s' = { s with buffer := none,
                    window := return_buffer_to_window s.buffer s.window }) ∨
    (∃ l q a, s.senderAlive = true ∧ s.receiverAlive = true ∧
      s.buffer = some (ChannelBuffer.Sending l q a) ∧
      b.length ≤ s.window.advertised ∧
      s' = { s with
        buffer := some (ChannelBuffer.Sending (l + b.length) (q ++ [b]) none),
        window := (s.window.claim_advertised b.length).getD s.window,
        pushed := s.pushed ++ [b] }) := by
  simp only [step] at h
  split at h
  · simp at h
  · rename_i hsa
    have hsa' : s.senderAlive = true := by simpa using hsa
    split at h
    · rename_i b2 w2 t2 heq
      rcases push_bytes_eq_ok heq with ⟨l, q, a, hra, hbuf, hle, hb', hw', _⟩
      simp only [Option.some.injEq] at h
      exact Or.inr ⟨l, q, a, hsa', hra, hbuf, hle, by rw [← h, hb', hw']⟩
    · rename_i b2 w2 t2 heq
      rcases push_bytes_eq_err heq with ⟨hra, hb', hw', _⟩
      simp only [Option.some.injEq] at h
      refine Or.inl ⟨hsa', by simpa using hra, ?_⟩
      rw [← h, hb', hw']
    · simp at h

theorem step_pollChunk_cases {E : Type} {s s' : Sys E} {m cur : Nat}
    (h : step s (Op.pollChunk m cur) = some s') :
    s.receiverAlive = true ∧
    ∃ r b', ByteReceiver.poll_chunk s.buffer m cur = some (r, b') ∧
      ((∃ c, r = PollChunk.readyChunk c ∧
        s' = { s with buffer := b', chunks := s.chunks ++ [c],
                      yielded := s.yielded ++ [c.seq] }) ∨
       ((∀ c, r ≠ PollChunk.readyChunk c) ∧ s' = { s with buffer := b' })) := by
  simp only [step] at h
  split at h
  · simp at h
  · rename_i hra
    have hra' : s.receiverAlive = true := by simpa using hra
    split at h
    · simp at h
    · rename_i c b' heq
      simp only [Option.some.injEq] at h
      exact ⟨hra', PollChunk.readyChunk c, b', heq, Or.inl ⟨c, rfl, h.symm⟩⟩
    · rename_i r b' hnp heq
      simp only [Option.some.injEq] at h
      refine ⟨hra', r, b', heq, Or.inr ⟨?_, h.symm⟩⟩
      intro c hc
      exact absurd hc (hnp c)

theorem step_advPoll_cases {E : Type} {s s' : Sys E} {cur : Nat}
    (h : step s (Op.advPoll cur) = some s') :
    (∃ w' k, s.window.poll_increment cur = (w', some k) ∧
      s' = { s with window := w', delivered := s.delivered + k }) ∨
    (∃ w', s.window.poll_increment cur = (w', none) ∧
      s' = { s with window := w' }) := by
  simp only [step] at h
  split at h
  · rename_i w' k heq
    simp only [Option.some.injEq] at h
    exact Or.inl ⟨w', k, heq, h.symm⟩
  · rename_i w' heq
    simp only [Option.some.injEq] at h
    exact Or.inr ⟨w', heq, h.symm⟩

theorem step_advanceChunk_cases {E : Type} {s s' : Sys E} {i n : Nat}
    (h : step s (Op.advanceChunk i n) = some s') :
    ∃ c c' cap, s.chunks[i]? = some c ∧ c.advance n = some (c', cap) ∧
      s' = { s with chunks := s.chunks.set i c',
                    window := (s.window.advertise_increment cap).1 } := by
  simp only [step] at h
  split at h
  · simp at h
  · rename_i c hc
    split at h
    · simp at h
    · rename_i c' cap ha
      simp only [Option.some.injEq] at h
      exact ⟨c, c', cap, hc, ha, h.symm⟩

theorem step_dropChunk_cases {E : Type} {s s' : Sys E} {i : Nat}
    (h : step s (Op.dropChunk i) = some s') :
    ∃ c, s.chunks[i]? = some c ∧
      s' = { s with chunks := s.chunks.eraseIdx i,
                    window := (s.window.advertise_increment c.dropCredit).1 } := by
  simp only [step] at h
  split at h
  · simp at h
  · rename_i c hc
    simp only [Option.some.injEq] at h
    exact ⟨c, hc, h.symm⟩

theorem step_shrink_cases {E : Type} {s s' : Sys E} {n : Nat}
    (h : step s (Op.shrinkWin n) = some s') :
    s.receiverAlive = true ∧
    s' = { s with window := s.window.shrink n, shrunk := s.shrunk + n } := by
  simp only [step] at h
  split at h
  · simp at h
  · rename_i hra
    simp only [Option.some.injEq] at h
    exact ⟨by simpa using hra, h.symm⟩

theorem step_close_cases {E : Type} {s s' : Sys E}
    (h : step s Op.closeSender = some s') :
    s.senderAlive = true ∧
    ((s.receiverAlive = false ∧
      s' = { s with buffer := none,
                    window := return_buffer_to_window s.buffer s.window,
                    senderAlive := false }) ∨
     (∃ l q a, s.receiverAlive = true ∧
       s.buffer = some (ChannelBuffer.Sending l q a) ∧
       s' = { s with buffer := some (ChannelBuffer.SenderClosed l q),
                     senderAlive := false }) ∨
     (s.receiverAlive = true ∧
       (∀ l q a, s.buffer ≠ some (ChannelBuffer.Sending l q a)) ∧
       s' = { s with senderAlive := false })) := by
  simp only [step] at h
  split at h
  · simp at h
  · rename_i hsa
    have hsa' : s.senderAlive = true := by simpa using hsa
    refine ⟨hsa', ?_⟩
    unfold ByteSender.do_close at h
    split at h
    · rename_i hra
      simp only [Option.some.injEq] at h
      exact Or.inl ⟨by simpa using hra, h.symm⟩
    · rename_i hra
      have hra' : s.receiverAlive = true := by simpa using hra
      split at h
      · rename_i l q a hbuf
        simp only [Option.some.injEq] at h
        exact Or.inr (Or.inl ⟨l, q, a, hra', hbuf, h.symm⟩)
      · rename_i hother
        simp only [Option.some.injEq] at h
        refine Or.inr (Or.inr ⟨hra', ?_, ?_⟩)
        · intro l q a hbuf
          exact hother l q a hbuf
        · rw [← h]

theorem step_reset_cases {E : Type} {s s' : Sys E} {e : E}
    (h : step s (Op.resetSender e) = some s') :
    s.senderAlive = true ∧
    s' = { s with buffer := some (ChannelBuffer.SenderFailed e),
                  window := return_buffer_to_window s.buffer s.window,
                  senderAlive := false } := by
  simp only [step] at h
  split at h
  · simp at h
  · rename_i hsa
    simp only [Option.some.injEq] at h
    exact ⟨by simpa using hsa, h.symm⟩

theorem step_dropReceiver_cases {E : Type} {s s' : Sys E}
    (h : step s Op.dropReceiver = some s') :
    s.receiverAlive = true ∧
    ((s.buffer = none ∧ s' = { s with receiverAlive := false }) ∨
     (s.buffer ≠ none ∧
       s' = { s with buffer := some ChannelBuffer.LostReceiver,
                     receiverAlive := false })) := by
  simp only [step] at h
  split at h
  · simp at h
  · rename_i hra
    have hra' : s.receiverAlive = true := by simpa using hra
    refine ⟨hra', ?_⟩
    unfold ByteReceiver.dropReceiver at h
    split at h
    · rename_i hbuf
      simp only [Option.some.injEq] at h
      refine Or.inl ⟨hbuf, ?_⟩
      rw [← h, hbuf]
    · rename_i cb hbuf
      simp only [return_buffer_to_window, bufferLen, Option.some.injEq] at h
      refine Or.inr ⟨by simp [hbuf], ?_⟩
      rw [← h]
      simp

/-! ## Facts about chunk assembly -/

theorem assemble_chunk_spec (q : List Bytes) (sz : Nat) :
    (ByteReceiver.assemble_chunk q sz).1.seq = q.flatten.take sz ∧
    (ByteReceiver.assemble_chunk q sz).2.flatten = q.flatten.drop sz ∧
    (ByteReceiver.assemble_chunk q sz).1.len = min sz q.flatten.length := by
  rcases assembleLoop_take_drop q sz with ⟨ht, hd⟩
  unfold ByteReceiver.assemble_chunk
  refine ⟨?_, ?_, ?_⟩
  · rw [from_vec_seq, ht]
  · rw [hd]
  · rw [from_vec_len, ht, List.length_take]

theorem assemble_chunk_flag (q : List Bytes) (sz : Nat) :
    (ByteReceiver.assemble_chunk q sz).1.window = false →
    (ByteReceiver.assemble_chunk q sz).1.len = 0 := by
  unfold ByteReceiver.assemble_chunk
  exact from_vec_flag _

/-! ## Invariant induction along reachability -/

theorem reach_invariant_closed {E : Type} {P : Sys E → Op E → Prop} {I : Sys E → Prop}
    (hstep : ∀ s op s', I s → P s op → step s op = some s' → I s')
    {s₀ s : Sys E} (h : Reach P s₀ s) (h0 : I s₀) : I s := by
  induction h with
  | refl => exact h0
  | tail hr hp hs ih => exact hstep _ _ _ ih hp hs

/-- One step preserves the conservation invariant, for the operations claim
C1 ranges over (excluding only the buggy full-length `One` advance). -/
theorem conservation_step {E : Type} {n : Nat} (s : Sys E) (op : Op E) (s' : Sys E)
    (hI : ConservationInv n s) (hop : C1Allowed s op) (hst : step s op = some s') :
    ConservationInv n s' := by
  obtain ⟨h1, h2, h3, h4⟩ := hI
  simp only [creditTotal, chunksTotal] at h1
  cases op with
  | push b =>
    rcases step_push_cases hst with ⟨_, _, hs'⟩ | ⟨l, q, a, _, _, hbuf, hle, hs'⟩
    · rcases return_buffer_balance s.buffer s.window with ⟨hb1, hb2⟩
      subst hs'
      refine ⟨?_, ?_, ?_, ?_⟩
      · simp only [creditTotal, chunksTotal, bufferLen]
        omega
      · dsimp only
        omega
      · simp [bufferLen, bufferQueue]
      · intro c hc
        exact h4 c hc
    · rw [claim_advertised_getD s.window b.length hle] at hs'
      subst hs'
      rw [hbuf] at h1 h3
      simp only [bufferLen, ChannelBuffer.len, bufferQueue] at h1 h3
      refine ⟨?_, ?_, ?_, ?_⟩
      · simp only [creditTotal, chunksTotal, bufferLen, ChannelBuffer.len, windowCore] at *
        omega
      · dsimp only
        exact h2
      · simp only [bufferLen, ChannelBuffer.len, bufferQueue, List.flatten_append,
          List.length_append]
        simp [h3]
      · intro c hc
        exact h4 c hc
  | pollChunk m cur =>
    rcases step_pollChunk_cases hst with ⟨hra, r, b', hpoll, hshape⟩
    rcases poll_chunk_cases hpoll with
      ⟨hm, hr, hb'⟩ | ⟨hm, hbuf, hr, hb'⟩ | ⟨e, hm, hbuf, hr, hb'⟩ |
      ⟨q, a, hm, hbuf, hr, hb'⟩ | ⟨l, q, a, hm, hbuf, hl, hr, hb'⟩ |
      ⟨q, hm, hbuf, hr, hb'⟩ | ⟨l, q, hm, hbuf, hl, hr, hb'⟩
    · -- max_sz = 0: empty chunk, buffer untouched
      rcases hshape with ⟨c, hc, hs'⟩ | ⟨hnc, _⟩
      · rw [hr] at hc
        have hc' : c = Chunk.empty := by
          injection hc with hc''
          exact hc''.symm
        subst hc'
        subst hs'
        rw [hb']
        refine ⟨?_, ?_, ?_, ?_⟩
        · simp only [creditTotal, chunksTotal, List.map_append, List.sum_append]
          simp only [List.map_cons, List.map_nil, List.sum_cons, List.sum_nil]
          have : Chunk.empty.len = 0 := rfl
          omega
        · dsimp only
          exact h2
        · exact h3
        · intro c hc
          rcases List.mem_append.mp hc with hcl | hcr
          · exact h4 c hcl
          · simp only [List.mem_singleton] at hcr
            subst hcr
            intro _
            rfl
      · exact absurd hr (hnc Chunk.empty)
    · -- destroyed buffer: end of stream
      rcases hshape with ⟨c, hc, hs'⟩ | ⟨hnc, hs'⟩
      · rw [hr] at hc; exact absurd hc.symm (by simp)
      · subst hs'
        rw [hbuf] at h1 h3
        simp only [bufferLen, bufferQueue] at h1 h3
        subst hb'
        refine ⟨?_, ?_, ?_, ?_⟩
        · simp only [creditTotal, chunksTotal, bufferLen]
          omega
        · dsimp only
          exact h2
        · simp [bufferLen, bufferQueue]
        · intro c hc
          exact h4 c hc
    · -- SenderFailed: error surfaced, buffer destroyed
      rcases hshape with ⟨c, hc, hs'⟩ | ⟨hnc, hs'⟩
      · rw [hr] at hc; exact absurd hc.symm (by simp)
      · subst hs'
        rw [hbuf] at h1 h3
        simp only [bufferLen, ChannelBuffer.len, bufferQueue] at h1 h3
        subst hb'
        refine ⟨?_, ?_, ?_, ?_⟩
        · simp only [creditTotal, chunksTotal, bufferLen]
          omega
        · dsimp only
          exact h2
        · simp [bufferLen, bufferQueue]
        · intro c hc
          exact h4 c hc
    · -- Sending with empty queue: park the waker
      rcases hshape with ⟨c, hc, hs'⟩ | ⟨hnc, hs'⟩
      · rw [hr] at hc; exact absurd hc.symm (by simp)
      · subst hs'
        rw [hbuf] at h1 h3
        simp only [bufferLen, ChannelBuffer.len, bufferQueue] at h1 h3
        subst hb'
        refine ⟨?_, ?_, ?_, ?_⟩
        · simp only [creditTotal, chunksTotal, bufferLen, ChannelBuffer.len]
          omega
        · dsimp only
          exact h2
        · simp only [bufferLen, ChannelBuffer.len, bufferQueue]
          exact h3
        · intro c hc
          exact h4 c hc
    · -- Sending with data: slice min(len, max_sz) bytes off the head
      rcases hshape with ⟨c, hc, hs'⟩ | ⟨hnc, hs'⟩
      · rw [hr] at hc
        have hceq : c = (ByteReceiver.assemble_chunk q (min l m)).1 := by
          injection hc with hc''
          exact hc''.symm
        subst hceq
        subst hs'
        subst hb'
        rw [hbuf] at h1 h3
        simp only [bufferLen, ChannelBuffer.len, bufferQueue] at h1 h3
        rcases assemble_chunk_spec q (min l m) with ⟨_, hd, hlen⟩
        have hdl : (ByteReceiver.assemble_chunk q (min l m)).2.flatten.length
            = q.flatten.length - min l m := by
          rw [hd, List.length_drop]
        refine ⟨?_, ?_, ?_, ?_⟩
        · simp only [creditTotal, chunksTotal, bufferLen, ChannelBuffer.len,
            List.map_append, List.sum_append, List.map_cons, List.map_nil,
            List.sum_cons, List.sum_nil]
          omega
        · dsimp only
          exact h2
        · simp only [bufferLen, ChannelBuffer.len, bufferQueue]
          omega
        · intro x hx
          rcases List.mem_append.mp hx with hxl | hxr
          · exact h4 x hxl
          · simp only [List.mem_singleton] at hxr
            subst hxr
            exact assemble_chunk_flag q (min l m)
      · exact absurd hr (hnc _)
    · -- SenderClosed fully drained: end of stream
      rcases hshape with ⟨c, hc, hs'⟩ | ⟨hnc, hs'⟩
      · rw [hr] at hc; exact absurd hc.symm (by simp)
      · subst hs'
        rw [hbuf] at h1 h3
        simp only [bufferLen, ChannelBuffer.len, bufferQueue] at h1 h3
        subst hb'
        refine ⟨?_, ?_, ?_, ?_⟩
        · simp only [creditTotal, chunksTotal, bufferLen]
          omega
        · dsimp only
          exact h2
        · simp [bufferLen, bufferQueue]
        · intro c hc
          exact h4 c hc
    · -- SenderClosed with data: slice, possibly destroying the buffer
      rcases hshape with ⟨c, hc, hs'⟩ | ⟨hnc, hs'⟩
      · rw [hr] at hc
        have hceq : c = (ByteReceiver.assemble_chunk q (min l m)).1 := by
          injection hc with hc''
          exact hc''.symm
        subst hceq
        subst hs'
        subst hb'
        rw [hbuf] at h1 h3
        simp only [bufferLen, ChannelBuffer.len, bufferQueue] at h1 h3
        rcases assemble_chunk_spec q (min l m) with ⟨_, hd, hlen⟩
        have hdl : (ByteReceiver.assemble_chunk q (min l m)).2.flatten.length
            = q.flatten.length - min l m := by
          rw [hd, List.length_drop]
        by_cases hz : l - min l m = 0
        · refine ⟨?_, ?_, ?_, ?_⟩
          · simp only [creditTotal, chunksTotal, bufferLen, ChannelBuffer.len,
              List.map_append, List.sum_append, List.map_cons, List.map_nil,
              List.sum_cons, List.sum_nil, if_pos hz]
            omega
          · dsimp only
            exact h2
          · simp only [if_pos hz]
            simp [bufferLen, bufferQueue]
          · intro x hx
            rcases List.mem_append.mp hx with hxl | hxr
            · exact h4 x hxl
            · simp only [List.mem_singleton] at hxr
              subst hxr
              exact assemble_chunk_flag q (min l m)
        · refine ⟨?_, ?_, ?_, ?_⟩
          · simp only [creditTotal, chunksTotal, bufferLen, ChannelBuffer.len,
              List.map_append, List.sum_append, List.map_cons, List.map_nil,
              List.sum_cons, List.sum_nil, if_neg hz]
            omega
          · dsimp only
            exact h2
          · simp only [if_neg hz]
            simp only [bufferLen, ChannelBuffer.len, bufferQueue]
            omega
          · intro x hx
            rcases List.mem_append.mp hx with hxl | hxr
            · exact h4 x hxl
            · simp only [List.mem_singleton] at hxr
              subst hxr
              exact assemble_chunk_flag q (min l m)
      · exact absurd hr (hnc _)
  | advPoll cur =>
    rcases step_advPoll_cases hst with ⟨w', k, hp, hs'⟩ | ⟨w', hp, hs'⟩
    · rcases poll_increment_balance s.window cur with ⟨hb1, hb2⟩
      rw [hp] at hb1 hb2
      subst hs'
      refine ⟨?_, ?_, ?_, ?_⟩
      · simp only [creditTotal, chunksTotal]
        dsimp only at *
        omega
      · dsimp only at *
        omega
      · exact h3
      · intro c hc
        exact h4 c hc
    · rcases poll_increment_balance s.window cur with ⟨hb1, hb2⟩
      rw [hp] at hb1 hb2
      subst hs'
      refine ⟨?_, ?_, ?_, ?_⟩
      · simp only [creditTotal, chunksTotal]
        dsimp only at *
        omega
      · dsimp only at *
        omega
      · exact h3
      · intro c hc
        exact h4 c hc
  | advanceChunk i m =>
    rcases step_advanceChunk_cases hst with ⟨c, c', cap, hc, ha, hs'⟩
    have hmem : c ∈ s.chunks := List.getElem?_mem hc
    have hflag : c.window = false → c.len = 0 := h4 c hmem
    have hnotbad := badAdvanceB_of_false hc (by simpa [C1Allowed] using hop)
    have hbal := advance_balance hflag hnotbad ha
    have hsum := sum_map_len_set s.chunks i c c' hc
    rcases advertise_increment_balance s.window cap with ⟨hb1, hb2⟩
    subst hs'
    refine ⟨?_, ?_, ?_, ?_⟩
    · simp only [creditTotal, chunksTotal]
      omega
    · dsimp only
      omega
    · exact h3
    · intro x hx
      rcases List.mem_or_eq_of_mem_set hx with hxl | hxe
      · exact h4 x hxl
      · subst hxe
        exact advance_flag_preserved hflag ha
  | dropChunk i =>
    rcases step_dropChunk_cases hst with ⟨c, hc, hs'⟩
    have hmem : c ∈ s.chunks := List.getElem?_mem hc
    have hflag : c.window = false → c.len = 0 := h4 c hmem
    have hcap : c.dropCredit = c.len := by
      unfold Chunk.dropCredit
      cases hw : c.window with
      | true => simp
      | false => simp [hflag hw]
    have hsum := sum_map_len_eraseIdx s.chunks i c hc
    rcases advertise_increment_balance s.window c.dropCredit with ⟨hb1, hb2⟩
    subst hs'
    refine ⟨?_, ?_, ?_, ?_⟩
    · simp only [creditTotal, chunksTotal]
      omega
    · dsimp only
      omega
    · exact h3
    · intro x hx
      exact h4 x (List.eraseIdx_subset _ _ hx)
  | shrinkWin m =>
    rcases step_shrink_cases hst with ⟨_, hs'⟩
    subst hs'
    refine ⟨?_, ?_, ?_, ?_⟩
    · simp only [creditTotal, chunksTotal, Window.shrink, windowCore] at *
      omega
    · simp only [Window.shrink]
      omega
    · exact h3
    · intro c hc
      exact h4 c hc
  | closeSender => simp [C1Allowed] at hop
  | resetSender e => simp [C1Allowed] at hop
  | dropReceiver => simp [C1Allowed] at hop

/-! ## Claim theorems -/

theorem conservation_start (E : Type) (n : Nat) : ConservationInv n (Sys.start E n) := by
  refine ⟨?_, ?_, ?_, ?_⟩ <;>
    simp [Sys.start, creditTotal, chunksTotal, windowCore, Window.new, bufferLen,
      bufferQueue, ChannelBuffer.default, ChannelBuffer.len]

/-- **C1 (counterexample).** The claim's equation reads
`advertised + pending + bytes_in_buffer + bytes_in_chunks
  = initial + Σ(advertiser-delivered) - Σ(shrinks consumed)`.
Already after the very first advertiser poll on `new(10)` it fails: the
credit total is still 10, but the advertiser has delivered 10, so the
claimed right-hand side is 20. -/
theorem C1_counterexample :
    run (Sys.start Unit 10) [Op.advPoll 0] =
      some { window := ⟨0, 10, 0, none⟩,
             buffer := some (ChannelBuffer.Sending 0 [] none),
             chunks := [], senderAlive := true, receiverAlive := true,
             pushed := [], yielded := [], delivered := 10, shrunk := 0 } ∧
    creditTotal ({ window := ⟨0, 10, 0, none⟩,
                   buffer := some (ChannelBuffer.Sending 0 [] none),
                   chunks := [], senderAlive := true, receiverAlive := true,
                   pushed := [], yielded := [], delivered := 10,
                   shrunk := 0 } : Sys Unit) = 10 ∧
    ¬ (creditTotal ({ window := ⟨0, 10, 0, none⟩,
                      buffer := some (ChannelBuffer.Sending 0 [] none),
                      chunks := [], senderAlive := true, receiverAlive := true,
                      pushed := [], yielded := [], delivered := 10,
                      shrunk := 0 } : Sys Unit) = 10 + 10 - (0 - 0)) := by
  decide

/-- **C1 (amended).** Credit conservation, corrected: for every state
reachable from `new(n)` by the listed operations (excluding the one
`Chunk::advance` call whose accounting the source code gets wrong, cf. C4),
`advertised + pending + bytes queued in the buffer + bytes remaining in live
chunks = initial_window_size - shrinks consumed`, where the shrinks consumed
so far are `Σ shrink - underflow` (and `underflow ≤ Σ shrink`). There is no
`Σ(advertiser-delivered)` term: delivery only moves credit between `pending`
and `advertised`; no operation other than `shrink` creates or destroys
credit. -/
theorem C1_conservation (E : Type) (n : Nat) (s : Sys E)
    (h : Reach C1Allowed (Sys.start E n) s) :
    creditTotal s + (s.shrunk - s.window.underflow) = n ∧
    s.window.underflow ≤ s.shrunk := by
  have hI := reach_invariant_closed (fun s op s' => conservation_step s op s') h
    (conservation_start E n)
  obtain ⟨h1, h2, _, _⟩ := hI
  exact ⟨by omega, h2⟩

/-- Witness for C1 on a concrete two-step reachable state. -/
theorem C1_conservation_witness :
    creditTotal ({ window := ⟨0, 10, 0, none⟩,
                   buffer := some (ChannelBuffer.Sending 0 [] none),
                   chunks := [], senderAlive := true, receiverAlive := true,
                   pushed := [], yielded := [], delivered := 10,
                   shrunk := 0 } : Sys Unit) + (0 - 0) = 10 ∧
    (0 : Nat) ≤ 0 := by
  have hstep : step (Sys.start Unit 10) (Op.advPoll 0) =
      some { window := ⟨0, 10, 0, none⟩,
             buffer := some (ChannelBuffer.Sending 0 [] none),
             chunks := [], senderAlive := true, receiverAlive := true,
             pushed := [], yielded := [], delivered := 10, shrunk := 0 } := by
    decide
  have h := C1_conservation Unit 10 _ (Reach.tail (Reach.refl _) (by trivial) hstep)
  simpa using h

/-! ### C8: validity of the `apply_increment` assertion -/

theorem underflow_zero_step {E : Type} (s : Sys E) (op : Op E) (s' : Sys E)
    (hI : s.window.underflow = 0) (hop : NoShrinkOp s op) (hst : step s op = some s') :
    s'.window.underflow = 0 := by
  cases op with
  | push b =>
    rcases step_push_cases hst with ⟨_, _, hs'⟩ | ⟨l, q, a, _, _, hbuf, hle, hs'⟩
    · subst hs'
      rcases return_buffer_balance s.buffer s.window with ⟨_, hb2⟩
      show (return_buffer_to_window s.buffer s.window).underflow = 0
      omega
    · rw [claim_advertised_getD s.window b.length hle] at hs'
      subst hs'
      exact hI
  | pollChunk m cur =>
    rcases step_pollChunk_cases hst with ⟨_, r, b', _, hshape⟩
    rcases hshape with ⟨c, _, hs'⟩ | ⟨_, hs'⟩ <;> subst hs' <;> exact hI
  | advPoll cur =>
    rcases step_advPoll_cases hst with ⟨w', k, hp, hs'⟩ | ⟨w', hp, hs'⟩ <;>
      rcases poll_increment_balance s.window cur with ⟨_, hb2⟩
    · rw [hp] at hb2
      simp at hb2
      subst hs'
      show w'.underflow = 0
      omega
    · rw [hp] at hb2
      simp at hb2
      subst hs'
      show w'.underflow = 0
      omega
  | advanceChunk i m =>
    rcases step_advanceChunk_cases hst with ⟨c, c', cap, hc, ha, hs'⟩
    rcases advertise_increment_balance s.window cap with ⟨_, hb2⟩
    subst hs'
    show ((s.window.advertise_increment cap).1).underflow = 0
    omega
  | dropChunk i =>
    rcases step_dropChunk_cases hst with ⟨c, hc, hs'⟩
    rcases advertise_increment_balance s.window c.dropCredit with ⟨_, hb2⟩
    subst hs'
    show ((s.window.advertise_increment c.dropCredit).1).underflow = 0
    omega
  | shrinkWin m => simp [NoShrinkOp] at hop
  | closeSender =>
    rcases step_close_cases hst with ⟨_, ⟨_, hs'⟩ | ⟨l, q, a, _, _, hs'⟩ | ⟨_, _, hs'⟩⟩
    · subst hs'
      rcases return_buffer_balance s.buffer s.window with ⟨_, hb2⟩
      show (return_buffer_to_window s.buffer s.window).underflow = 0
      omega
    · subst hs'
      exact hI
    · subst hs'
      exact hI
  | resetSender e =>
    rcases step_reset_cases hst with ⟨_, hs'⟩
    subst hs'
    rcases return_buffer_balance s.buffer s.window with ⟨_, hb2⟩
    show (return_buffer_to_window s.buffer s.window).underflow = 0
    omega
  | dropReceiver =>
    rcases step_dropReceiver_cases hst with ⟨_, ⟨_, hs'⟩ | ⟨_, hs'⟩⟩ <;> subst hs' <;>
      exact hI

/-- **C8 (counterexample).** A legal operation sequence — deliver the initial
window, push and read 3 bytes, drop the chunk (staging a 3-byte increment),
then shrink by 5 — reaches a window with `pending = 3 ≤ underflow = 5` and
`advertised = 7 ≠ 0`: the next `poll_increment` takes the
`underflow ≥ pending` branch and the code's
`debug_assert_eq!(advertised, 0)` is violated. -/
theorem C8_counterexample :
    run (Sys.start Unit 10)
      [Op.advPoll 0, Op.push [1, 2, 3], Op.pollChunk 3 0, Op.dropChunk 0,
       Op.shrinkWin 5] =
      some { window := ⟨3, 7, 5, none⟩,
             buffer := some (ChannelBuffer.Sending 0 [] none),
             chunks := [], senderAlive := true, receiverAlive := true,
             pushed := [[1, 2, 3]], yielded := [[1, 2, 3]], delivered := 10,
             shrunk := 5 } ∧
    ¬ (⟨3, 7, 5, none⟩ : Window).applyAssertHolds := by
  decide

/-- **C8 (amended).** On every state reachable by legal operation sequences
that never call `shrink`, the underflow is identically zero, so the
`underflow ≥ pending > 0` branch of `apply_increment` is never taken and its
`advertised == 0` assertion holds. With `shrink` in the mix the assertion is
violated on reachable states (see the counterexample). -/
theorem C8_assert_no_shrink (E : Type) (n : Nat) (s : Sys E)
    (h : Reach NoShrinkOp (Sys.start E n) s) :
    s.window.underflow = 0 ∧ s.window.applyAssertHolds := by
  have hu : s.window.underflow = 0 :=
    reach_invariant_closed (fun s op s' => underflow_zero_step s op s') h
      (by simp [Sys.start, Window.new])
  refine ⟨hu, ?_⟩
  intro hp hle
  omega

/-- Witness for C8 (amended) at a concrete reachable state. -/
theorem C8_assert_witness :
    ((Sys.start Unit 8).window.underflow = 0 ∧
      (Sys.start Unit 8).window.applyAssertHolds) ∧
    ({ window := ⟨0, 8, 0, none⟩,
       buffer := some (ChannelBuffer.Sending 0 [] none),
       chunks := [], senderAlive := true, receiverAlive := true,
       pushed := [], yielded := [], delivered := 8,
       shrunk := (0 : Nat) : Sys Unit }.window.underflow = 0) := by
  have hstep : step (Sys.start Unit 8) (Op.advPoll 0) =
      some { window := ⟨0, 8, 0, none⟩,
             buffer := some (ChannelBuffer.Sending 0 [] none),
             chunks := [], senderAlive := true, receiverAlive := true,
             pushed := [], yielded := [], delivered := 8, shrunk := 0 } := by
    decide
  constructor
  · exact C8_assert_no_shrink Unit 8 (Sys.start Unit 8) (Reach.refl _)
  · exact (C8_assert_no_shrink Unit 8 _
      (Reach.tail (Reach.refl _) (by trivial) hstep)).1

/-! ### C5: the push_bytes contract -/

/-- **C5.** `push_bytes` errs with `LostPeer` exactly when the receiver has
been lost (and then enqueues nothing — the buffer cell is cleared);
otherwise, on a `Sending` buffer, if `b.len() ≤ advertised` it enqueues the
bytes (len grows by `b.len()`), claims `b.len()` from the advertised window,
and takes (to notify) the parked `awaiting_chunk` waker; if
`b.len() > advertised` it panics (`"byte channel overflow"`) and nothing is
enqueued. -/
theorem C5_push_contract (E : Type) (ra : Bool) (buffer : Option (ChannelBuffer E))
    (w : Window) (bytes : Bytes) :
    ((ByteSender.push_bytes ra buffer w bytes).1 = PushOutcome.errLostPeer ↔
      ra = false) ∧
    (ra = false → (ByteSender.push_bytes ra buffer w bytes).2.1 = none) ∧
    (∀ l q a, buffer = some (ChannelBuffer.Sending l q a) → ra = true →
      (bytes.length ≤ w.advertised →
        ByteSender.push_bytes ra buffer w bytes =
          (PushOutcome.ok,
           some (ChannelBuffer.Sending (l + bytes.length) (q ++ [bytes]) none),
           { w with advertised := w.advertised - bytes.length }, a)) ∧
      (w.advertised < bytes.length →
        ByteSender.push_bytes ra buffer w bytes =
          (PushOutcome.panicOverflow, buffer, w, none))) := by
  cases ra with
  | false =>
    refine ⟨by simp [ByteSender.push_bytes], fun _ => by simp [ByteSender.push_bytes], ?_⟩
    intro l q a hbuf hcontr
    cases hcontr
  | true =>
    refine ⟨⟨?_, fun hc => by simp at hc⟩, fun hc => by simp at hc, ?_⟩
    · intro h
      rcases ht : ByteSender.push_bytes true buffer w bytes with ⟨out, b', w', tk⟩
      rw [ht] at h
      simp only at h
      subst h
      exact absurd (push_bytes_eq_err ht).1 (by simp)
    · intro l q a hbuf _
      subst hbuf
      constructor
      · intro hle
        simp only [ByteSender.push_bytes, Bool.not_true, Bool.false_eq_true, if_false,
          ite_false, if_pos hle, claim_advertised_getD w bytes.length hle]
      · intro hgt
        have hnle : ¬ bytes.length ≤ w.advertised := by omega
        simp only [ByteSender.push_bytes, Bool.not_true, Bool.false_eq_true, if_false,
          ite_false, if_neg hnle]

/-- Witness for C5 at a concrete sender state. -/
theorem C5_push_witness :
    ByteSender.push_bytes true
      (some (ChannelBuffer.Sending 0 [] (some 3)) : Option (ChannelBuffer Unit))
      ⟨0, 5, 0, none⟩ [1, 2] =
      (PushOutcome.ok, some (ChannelBuffer.Sending 2 [[1, 2]] none),
       ⟨0, 3, 0, none⟩, some 3) := by
  have h := (C5_push_contract Unit true (some (ChannelBuffer.Sending 0 [] (some 3)))
    ⟨0, 5, 0, none⟩ [1, 2]).2.2 0 [] (some 3) rfl rfl
  simpa using h.1 (by decide)

/-! ### C6: round-trip identity -/

theorem roundtrip_step {E : Type} (s : Sys E) (op : Op E) (s' : Sys E)
    (hI : RoundTripInv s) (hop : PushPollOp s op) (hst : step s op = some s') :
    RoundTripInv s' := by
  obtain ⟨h1, h2, h3⟩ := hI
  cases op with
  | push b =>
    rcases step_push_cases hst with ⟨_, hra, _⟩ | ⟨l, q, a, _, _, hbuf, hle, hs'⟩
    · rw [h3] at hra
      cases hra
    · rw [claim_advertised_getD s.window b.length hle] at hs'
      subst hs'
      rw [hbuf] at h1 h2
      simp only [bufferQueue, bufferLen, ChannelBuffer.len] at h1 h2
      refine ⟨?_, ?_, h3⟩
      · simp only [bufferQueue, List.flatten_append, List.flatten_cons,
          List.flatten_nil, List.append_nil]
        rw [← List.append_assoc, h1]
      · simp only [bufferQueue, bufferLen, ChannelBuffer.len, List.flatten_append,
          List.flatten_cons, List.flatten_nil, List.append_nil, List.length_append]
        omega
  | pollChunk m cur =>
    rcases step_pollChunk_cases hst with ⟨hra, r, b', hpoll, hshape⟩
    rcases poll_chunk_cases hpoll with
      ⟨hm, hr, hb'⟩ | ⟨hm, hbuf, hr, hb'⟩ | ⟨e, hm, hbuf, hr, hb'⟩ |
      ⟨q, a, hm, hbuf, hr, hb'⟩ | ⟨l, q, a, hm, hbuf, hl, hr, hb'⟩ |
      ⟨q, hm, hbuf, hr, hb'⟩ | ⟨l, q, hm, hbuf, hl, hr, hb'⟩
    · rcases hshape with ⟨c, hc, hs'⟩ | ⟨hnc, _⟩
      · rw [hr] at hc
        have hc' : c = Chunk.empty := by
          injection hc with hc''
          exact hc''.symm
        subst hc'
        subst hs'
        rw [hb']
        refine ⟨?_, h2, h3⟩
        simp only [List.flatten_append, List.flatten_cons, List.flatten_nil,
          List.append_nil]
        have hempty : Chunk.empty.seq = [] := rfl
        rw [hempty, List.append_nil]
        exact h1
      · exact absurd hr (hnc Chunk.empty)
    · rcases hshape with ⟨c, hc, hs'⟩ | ⟨hnc, hs'⟩
      · rw [hr] at hc; exact absurd hc.symm (by simp)
      · subst hs'
        subst hb'
        rw [hbuf] at h1 h2
        exact ⟨h1, h2, h3⟩
    · rcases hshape with ⟨c, hc, hs'⟩ | ⟨hnc, hs'⟩
      · rw [hr] at hc; exact absurd hc.symm (by simp)
      · subst hs'
        subst hb'
        rw [hbuf] at h1 h2
        simp only [bufferQueue, bufferLen, ChannelBuffer.len] at h1 h2 ⊢
        exact ⟨h1, h2, h3⟩
    · rcases hshape with ⟨c, hc, hs'⟩ | ⟨hnc, hs'⟩
      · rw [hr] at hc; exact absurd hc.symm (by simp)
      · subst hs'
        subst hb'
        rw [hbuf] at h1 h2
        simp only [bufferQueue, bufferLen, ChannelBuffer.len] at h1 h2 ⊢
        exact ⟨h1, h2, h3⟩
    · rcases hshape with ⟨c, hc, hs'⟩ | ⟨hnc, hs'⟩
      · rw [hr] at hc
        have hceq : c = (ByteReceiver.assemble_chunk q (min l m)).1 := by
          injection hc with hc''
          exact hc''.symm
        subst hceq
        subst hs'
        subst hb'
        rw [hbuf] at h1 h2
        simp only [bufferQueue, bufferLen, ChannelBuffer.len] at h1 h2
        rcases assemble_chunk_spec q (min l m) with ⟨hseq, hd, hlen⟩
        refine ⟨?_, ?_, h3⟩
        · simp only [bufferQueue, List.flatten_append, List.flatten_cons,
            List.flatten_nil, List.append_nil]
          rw [hseq, hd, List.append_assoc, List.take_append_drop]
          exact h1
        · simp only [bufferQueue, bufferLen, ChannelBuffer.len]
          rw [hd, List.length_drop]
          omega
      · exact absurd hr (hnc _)
    · rcases hshape with ⟨c, hc, hs'⟩ | ⟨hnc, hs'⟩
      · rw [hr] at hc; exact absurd hc.symm (by simp)
      · subst hs'
        subst hb'
        rw [hbuf] at h1 h2
        simp only [bufferQueue, bufferLen, ChannelBuffer.len] at h1 h2
        have hqnil : q.flatten = [] := List.eq_nil_of_length_eq_zero h2.symm
        rw [hqnil, List.append_nil] at h1
        refine ⟨?_, ?_, h3⟩
        · simpa [bufferQueue] using h1
        · simp [bufferQueue, bufferLen]
    · rcases hshape with ⟨c, hc, hs'⟩ | ⟨hnc, hs'⟩
      · rw [hr] at hc
        have hceq : c = (ByteReceiver.assemble_chunk q (min l m)).1 := by
          injection hc with hc''
          exact hc''.symm
        subst hceq
        subst hs'
        subst hb'
        rw [hbuf] at h1 h2
        simp only [bufferQueue, bufferLen, ChannelBuffer.len] at h1 h2
        rcases assemble_chunk_spec q (min l m) with ⟨hseq, hd, hlen⟩
        by_cases hz : l - min l m = 0
        · refine ⟨?_, ?_, h3⟩
          · simp only [if_pos hz, bufferQueue, List.flatten_append, List.flatten_cons,
              List.flatten_nil, List.append_nil]
            rw [hseq]
            have htake : q.flatten.take (min l m) = q.flatten := by
              apply List.take_of_length_le
              omega
            rw [htake]
            exact h1
          · simp [if_pos hz, bufferQueue, bufferLen]
        · refine ⟨?_, ?_, h3⟩
          · simp only [if_neg hz, bufferQueue, List.flatten_append, List.flatten_cons,
              List.flatten_nil, List.append_nil]
            rw [hseq, hd, List.append_assoc, List.take_append_drop]
            exact h1
          · simp only [if_neg hz, bufferQueue, bufferLen, ChannelBuffer.len]
            rw [hd, List.length_drop]
            omega
      · exact absurd hr (hnc _)
  | advPoll cur =>
    rcases step_advPoll_cases hst with ⟨w', k, hp, hs'⟩ | ⟨w', hp, hs'⟩ <;> subst hs' <;>
      exact ⟨h1, h2, h3⟩
  | advanceChunk i m =>
    rcases step_advanceChunk_cases hst with ⟨c, c', cap, hc, ha, hs'⟩
    subst hs'
    exact ⟨h1, h2, h3⟩
  | dropChunk i =>
    rcases step_dropChunk_cases hst with ⟨c, hc, hs'⟩
    subst hs'
    exact ⟨h1, h2, h3⟩
  | shrinkWin m =>
    rcases step_shrink_cases hst with ⟨_, hs'⟩
    subst hs'
    exact ⟨h1, h2, h3⟩
  | closeSender => simp [PushPollOp] at hop
  | resetSender e => simp [PushPollOp] at hop
  | dropReceiver => simp [PushPollOp] at hop

/-- **C6.** Round-trip identity: along any sequence of successful pushes and
chunk polls (no reset, close, or peer loss), the concatenation of the byte
sequences of all chunks yielded so far, followed by the bytes still queued,
equals the concatenation of all pushed buffers, in order — so when the queue
is drained the two concatenations coincide. Moreover every `poll_chunk`
on a queue of length `len > 0` with `max_sz > 0` yields exactly
`min(len, max_sz)` bytes taken from the head of the queue, leaving the
remainder queued in order (both in the `Sending` and the `SenderClosed`
state). -/
theorem C6_round_trip (E : Type) :
    (∀ (n : Nat) (s : Sys E), Reach PushPollOp (Sys.start E n) s →
      s.yielded.flatten ++ (bufferQueue s.buffer).flatten = s.pushed.flatten) ∧
    (∀ (l : Nat) (q : List Bytes) (a : Option Waker) (m cur : Nat),
      l = q.flatten.length → l ≠ 0 → m ≠ 0 →
      ByteReceiver.poll_chunk
        (some (ChannelBuffer.Sending l q a) : Option (ChannelBuffer E)) m cur =
        some (PollChunk.readyChunk (ByteReceiver.assemble_chunk q (min l m)).1,
              some (ChannelBuffer.Sending (l - min l m)
                (ByteReceiver.assemble_chunk q (min l m)).2 none)) ∧
      (ByteReceiver.assemble_chunk q (min l m)).1.seq = q.flatten.take (min l m) ∧
      (ByteReceiver.assemble_chunk q (min l m)).1.len = min l m ∧
      (ByteReceiver.assemble_chunk q (min l m)).2.flatten =
        q.flatten.drop (min l m)) ∧
    (∀ (l : Nat) (q : List Bytes) (m cur : Nat),
      l = q.flatten.length → l ≠ 0 → m ≠ 0 →
      ByteReceiver.poll_chunk
        (some (ChannelBuffer.SenderClosed l q) : Option (ChannelBuffer E)) m cur =
        some (PollChunk.readyChunk (ByteReceiver.assemble_chunk q (min l m)).1,
              if l - min l m = 0 then none
              else some (ChannelBuffer.SenderClosed (l - min l m)
                (ByteReceiver.assemble_chunk q (min l m)).2)) ∧
      (ByteReceiver.assemble_chunk q (min l m)).1.seq = q.flatten.take (min l m) ∧
      (ByteReceiver.assemble_chunk q (min l m)).1.len = min l m) := by
  refine ⟨?_, ?_, ?_⟩
  · intro n s h
    have hI : RoundTripInv s :=
      reach_invariant_closed (fun s op s' => roundtrip_step s op s') h
        (by refine ⟨?_, ?_, rfl⟩ <;>
          simp [Sys.start, bufferQueue, bufferLen, ChannelBuffer.default,
            ChannelBuffer.len])
    exact hI.1
  · intro l q a m cur hq hl hm
    rcases assemble_chunk_spec q (min l m) with ⟨hseq, hd, hlen⟩
    refine ⟨?_, hseq, ?_, hd⟩
    · simp only [ByteReceiver.poll_chunk, if_neg hm, if_neg hl]
    · rw [hlen]
      omega
  · intro l q m cur hq hl hm
    rcases assemble_chunk_spec q (min l m) with ⟨hseq, hd, hlen⟩
    refine ⟨?_, hseq, ?_⟩
    · simp only [ByteReceiver.poll_chunk, if_neg hm, if_neg hl]
    · rw [hlen]
      omega

/-- Witness for C6 at a concrete trace and a concrete slicing. -/
theorem C6_witness :
    (([] : List Bytes).flatten ++ ([[1, 2, 3]] : List Bytes).flatten =
      ([[1, 2, 3]] : List Bytes).flatten) ∧
    (ByteReceiver.assemble_chunk [[1, 2, 3]] (min 3 2)).1.seq =
      ([1, 2, 3] : Bytes).take 2 := by
  have hstep1 : step (Sys.start Unit 10) (Op.advPoll 0) =
      some { window := ⟨0, 10, 0, none⟩,
             buffer := some (ChannelBuffer.Sending 0 [] none),
             chunks := [], senderAlive := true, receiverAlive := true,
             pushed := [], yielded := [], delivered := 10, shrunk := 0 } := by
    decide
  have hstep2 : step ({ window := ⟨0, 10, 0, none⟩,
                        buffer := some (ChannelBuffer.Sending 0 [] none),
                        chunks := [], senderAlive := true, receiverAlive := true,
                        pushed := [], yielded := [], delivered := 10,
                        shrunk := 0 } : Sys Unit)
      (Op.push [1, 2, 3]) =
      some { window := ⟨0, 7, 0, none⟩,
             buffer := some (ChannelBuffer.Sending 3 [[1, 2, 3]] none),
             chunks := [], senderAlive := true, receiverAlive := true,
             pushed := [[1, 2, 3]], yielded := [], delivered := 10, shrunk := 0 } := by
    decide
  constructor
  · exact (C6_round_trip Unit).1 10 _
      (Reach.tail (Reach.tail (Reach.refl _) (by trivial) hstep1) (by trivial) hstep2)
  · have h := ((C6_round_trip Unit).2.1 3 [[1, 2, 3]] none 2 0 (by decide) (by decide)
      (by decide)).2.1
    simpa using h

/-! ### C7: monotone termination of the receiver -/

theorem sending_step {E : Type} (s : Sys E) (op : Op E) (s' : Sys E)
    (hI : SenderSeesSending s) (hop : AnyOp s op) (hst : step s op = some s') :
    SenderSeesSending s' := by
  cases op with
  | push b =>
    rcases step_push_cases hst with ⟨_, hra, hs'⟩ | ⟨l, q, a, _, _, hbuf, hle, hs'⟩
    · subst hs'
      intro _ hra'
      rw [hra] at hra'
      cases hra'
    · subst hs'
      intro _ _
      exact ⟨l + b.length, q ++ [b], none, rfl⟩
  | pollChunk m cur =>
    rcases step_pollChunk_cases hst with ⟨hra, r, b', hpoll, hshape⟩
    have hkey : s.senderAlive = true → s.receiverAlive = true →
        ∃ l q a, b' = some (ChannelBuffer.Sending l q a) := by
      intro hsa hra'
      rcases poll_chunk_cases hpoll with
        ⟨hm, hr, hbq⟩ | ⟨hm, hbuf, hr, hbq⟩ | ⟨e, hm, hbuf, hr, hbq⟩ |
        ⟨q, a, hm, hbuf, hr, hbq⟩ | ⟨l, q, a, hm, hbuf, hl, hr, hbq⟩ |
        ⟨q, hm, hbuf, hr, hbq⟩ | ⟨l, q, hm, hbuf, hl, hr, hbq⟩
      · rw [hbq]
        exact hI hsa hra'
      · rcases hI hsa hra' with ⟨l, q, a, hS⟩
        rw [hbuf] at hS
        cases hS
      · rcases hI hsa hra' with ⟨l', q', a', hS⟩
        rw [hbuf] at hS
        cases hS
      · exact ⟨0, q, some cur, hbq⟩
      · exact ⟨l - min l m, (ByteReceiver.assemble_chunk q (min l m)).2, none, hbq⟩
      · rcases hI hsa hra' with ⟨l', q', a', hS⟩
        rw [hbuf] at hS
        cases hS
      · rcases hI hsa hra' with ⟨l', q', a', hS⟩
        rw [hbuf] at hS
        cases hS
    rcases hshape with ⟨c, hc, hs'⟩ | ⟨hnc, hs'⟩ <;> subst hs' <;>
      exact fun hsa hra' => hkey hsa hra'
  | advPoll cur =>
    rcases step_advPoll_cases hst with ⟨w', k, hp, hs'⟩ | ⟨w', hp, hs'⟩ <;> subst hs' <;>
      exact hI
  | advanceChunk i m =>
    rcases step_advanceChunk_cases hst with ⟨c, c', cap, hc, ha, hs'⟩
    subst hs'
    exact hI
  | dropChunk i =>
    rcases step_dropChunk_cases hst with ⟨c, hc, hs'⟩
    subst hs'
    exact hI
  | shrinkWin m =>
    rcases step_shrink_cases hst with ⟨_, hs'⟩
    subst hs'
    exact hI
  | closeSender =>
    rcases step_close_cases hst
      with ⟨_, ⟨_, hs'⟩ | ⟨l, q, a, _, _, hs'⟩ | ⟨_, _, hs'⟩⟩ <;> subst hs' <;>
      intro hsa _ <;> cases hsa
  | resetSender e =>
    rcases step_reset_cases hst with ⟨_, hs'⟩
    subst hs'
    intro hsa _
    cases hsa
  | dropReceiver =>
    rcases step_dropReceiver_cases hst with ⟨_, ⟨_, hs'⟩ | ⟨_, hs'⟩⟩ <;> subst hs' <;>
      intro _ hra' <;> cases hra'

theorem dead_step {E : Type} (s : Sys E) (op : Op E) (s' : Sys E)
    (hI : Dead s) (hop : AnyOp s op) (hst : step s op = some s') : Dead s' := by
  obtain ⟨hb, hsa⟩ := hI
  cases op with
  | push b =>
    rcases step_push_cases hst with ⟨hsa', _, _⟩ | ⟨_, _, _, hsa', _, _, _, _⟩ <;>
      rw [hsa] at hsa' <;> cases hsa'
  | pollChunk m cur =>
    rcases step_pollChunk_cases hst with ⟨hra, r, b', hpoll, hshape⟩
    have hb'none : b' = none := by
      rcases poll_chunk_cases hpoll with
        ⟨hm, hr, hb'⟩ | ⟨hm, hbuf, hr, hb'⟩ | ⟨e, hm, hbuf, hr, hb'⟩ |
        ⟨q, a, hm, hbuf, hr, hb'⟩ | ⟨l, q, a, hm, hbuf, hl, hr, hb'⟩ |
        ⟨q, hm, hbuf, hr, hb'⟩ | ⟨l, q, hm, hbuf, hl, hr, hb'⟩
      · rw [hb', hb]
      · exact hb'
      · rw [hbuf] at hb; cases hb
      · rw [hbuf] at hb; cases hb
      · rw [hbuf] at hb; cases hb
      · exact hb'
      · rw [hbuf] at hb; cases hb
    rcases hshape with ⟨c, hc, hs'⟩ | ⟨hnc, hs'⟩ <;> subst hs' <;>
      exact ⟨hb'none, hsa⟩
  | advPoll cur =>
    rcases step_advPoll_cases hst with ⟨w', k, hp, hs'⟩ | ⟨w', hp, hs'⟩ <;> subst hs' <;>
      exact ⟨hb, hsa⟩
  | advanceChunk i m =>
    rcases step_advanceChunk_cases hst with ⟨c, c', cap, hc, ha, hs'⟩
    subst hs'
    exact ⟨hb, hsa⟩
  | dropChunk i =>
    rcases step_dropChunk_cases hst with ⟨c, hc, hs'⟩
    subst hs'
    exact ⟨hb, hsa⟩
  | shrinkWin m =>
    rcases step_shrink_cases hst with ⟨_, hs'⟩
    subst hs'
    exact ⟨hb, hsa⟩
  | closeSender =>
    rcases step_close_cases hst with ⟨hsa', _⟩
    rw [hsa] at hsa'
    cases hsa'
  | resetSender e =>
    rcases step_reset_cases hst with ⟨hsa', _⟩
    rw [hsa] at hsa'
    cases hsa'
  | dropReceiver =>
    rcases step_dropReceiver_cases hst with ⟨_, ⟨_, hs'⟩ | ⟨hbne, _⟩⟩
    · subst hs'
      exact ⟨hb, hsa⟩
    · exact absurd hb hbne

/-- A terminal `poll_chunk` result (`Ready(None)` or `Err`) leaves the cell
destroyed, and can only arise from a non-`Sending` cell. -/
theorem poll_chunk_terminal {E : Type} {buffer : Option (ChannelBuffer E)}
    {m cur : Nat} {r : PollChunk E} {b' : Option (ChannelBuffer E)}
    (hpoll : ByteReceiver.poll_chunk buffer m cur = some (r, b'))
    (hterm : r = PollChunk.readyNone ∨ ∃ e, r = PollChunk.err e) :
    b' = none ∧ ∀ l q a, buffer ≠ some (ChannelBuffer.Sending l q a) := by
  rcases poll_chunk_cases hpoll with
    ⟨hm, hr, hb'⟩ | ⟨hm, hbuf, hr, hb'⟩ | ⟨e, hm, hbuf, hr, hb'⟩ |
    ⟨q, a, hm, hbuf, hr, hb'⟩ | ⟨l, q, a, hm, hbuf, hl, hr, hb'⟩ |
    ⟨q, hm, hbuf, hr, hb'⟩ | ⟨l, q, hm, hbuf, hl, hr, hb'⟩
  · subst hr
    rcases hterm with h | ⟨e, h⟩ <;> cases h
  · exact ⟨hb', fun l q a h => by rw [hbuf] at h; cases h⟩
  · exact ⟨hb', fun l q a h => by rw [hbuf] at h; cases h⟩
  · subst hr
    rcases hterm with h | ⟨e, h⟩ <;> cases h
  · subst hr
    rcases hterm with h | ⟨e, h⟩ <;> cases h
  · exact ⟨hb', fun l q a h => by rw [hbuf] at h; cases h⟩
  · subst hr
    rcases hterm with h | ⟨e, h⟩ <;> cases h

/-- **C7.** Monotone termination: from any reachable state, once a
`poll_chunk` call returns `Ready(None)` or `Err(_)`, the cell is destroyed
and the sender is necessarily gone, and after any further legal operations
every `poll_chunk` with `max_sz > 0` returns `Ready(None)` — in particular
the `SenderFailed` error is delivered at most once and end-of-stream is
reported idempotently. -/
theorem C7_monotone (E : Type) (n : Nat) (s s2 : Sys E) (m cur : Nat)
    (r : PollChunk E) (b' : Option (ChannelBuffer E))
    (hreach : Reach AnyOp (Sys.start E n) s)
    (halive : s.receiverAlive = true)
    (hpoll : ByteReceiver.poll_chunk s.buffer m cur = some (r, b'))
    (hterm : r = PollChunk.readyNone ∨ ∃ e, r = PollChunk.err e)
    (hreach2 : Reach AnyOp { s with buffer := b' } s2)
    (m' cur' : Nat) (hm' : m' ≠ 0) :
    ByteReceiver.poll_chunk s2.buffer m' cur' =
      some (PollChunk.readyNone, none) := by
  rcases poll_chunk_terminal hpoll hterm with ⟨hb', hnotsend⟩
  have hsend : SenderSeesSending s :=
    reach_invariant_closed (fun s op s' => sending_step s op s') hreach
      (fun _ _ => ⟨0, [], none, rfl⟩)
  have hsa : s.senderAlive = false := by
    cases hsa : s.senderAlive with
    | false => rfl
    | true =>
      rcases hsend hsa halive with ⟨l, q, a, hS⟩
      exact absurd hS (hnotsend l q a)
  have hdead : Dead ({ s with buffer := b' } : Sys E) := by
    subst hb'
    exact ⟨rfl, hsa⟩
  have hdead2 : Dead s2 :=
    reach_invariant_closed (fun s op s' => dead_step s op s') hreach2 hdead
  rw [hdead2.1]
  simp [ByteReceiver.poll_chunk, hm']

/-- Witness for C7: after a reset surfaces its error, polls report
end-of-stream. -/
theorem C7_witness :
    ByteReceiver.poll_chunk
      (none : Option (ChannelBuffer Unit)) 4 1 =
      some (PollChunk.readyNone, none) := by
  have hstep1 : step (Sys.start Unit 10) (Op.resetSender ()) =
      some { window := ⟨10, 0, 0, none⟩,
             buffer := some (ChannelBuffer.SenderFailed ()),
             chunks := [], senderAlive := false, receiverAlive := true,
             pushed := [], yielded := [], delivered := 0, shrunk := 0 } := by
    decide
  have hpoll : ByteReceiver.poll_chunk
      (some (ChannelBuffer.SenderFailed ()) : Option (ChannelBuffer Unit)) 3 0 =
      some (PollChunk.err (), none) := by
    decide
  have h := C7_monotone Unit 10
    { window := ⟨10, 0, 0, none⟩,
      buffer := some (ChannelBuffer.SenderFailed ()),
      chunks := [], senderAlive := false, receiverAlive := true,
      pushed := [], yielded := [], delivered := 0, shrunk := 0 }
    _ 3 0 (PollChunk.err ()) none
    (Reach.tail (Reach.refl _) (by trivial) hstep1)
    rfl hpoll (Or.inr ⟨(), rfl⟩) (Reach.refl _) 4 1 (by decide)
  simpa using h

/-! ### C10: a live receiver never sees LostReceiver -/

theorem nolost_step {E : Type} (s : Sys E) (op : Op E) (s' : Sys E)
    (hI : NoLostRecv s) (hop : AnyOp s op) (hst : step s op = some s') :
    NoLostRecv s' := by
  cases op with
  | push b =>
    rcases step_push_cases hst with ⟨_, _, hs'⟩ | ⟨l, q, a, _, _, hbuf, hle, hs'⟩ <;>
      subst hs' <;> intro _ h <;> cases h
  | pollChunk m cur =>
    rcases step_pollChunk_cases hst with ⟨hra, r, b', hpoll, hshape⟩
    have hb' : b' ≠ some ChannelBuffer.LostReceiver := by
      rcases poll_chunk_cases hpoll with
        ⟨hm, hr, hbq⟩ | ⟨hm, hbuf, hr, hbq⟩ | ⟨e, hm, hbuf, hr, hbq⟩ |
        ⟨q, a, hm, hbuf, hr, hbq⟩ | ⟨l, q, a, hm, hbuf, hl, hr, hbq⟩ |
        ⟨q, hm, hbuf, hr, hbq⟩ | ⟨l, q, hm, hbuf, hl, hr, hbq⟩
      · rw [hbq]; exact hI hra
      · rw [hbq]; intro h; cases h
      · rw [hbq]; intro h; cases h
      · rw [hbq]; intro h; cases h
      · rw [hbq]; intro h; cases h
      · rw [hbq]; intro h; cases h
      · rw [hbq]
        by_cases hz : l - min l m = 0 <;> simp [hz]
    rcases hshape with ⟨c, hc, hs'⟩ | ⟨hnc, hs'⟩ <;> subst hs' <;> exact fun _ => hb'
  | advPoll cur =>
    rcases step_advPoll_cases hst with ⟨w', k, hp, hs'⟩ | ⟨w', hp, hs'⟩ <;> subst hs' <;>
      exact hI
  | advanceChunk i m =>
    rcases step_advanceChunk_cases hst with ⟨c, c', cap, hc, ha, hs'⟩
    subst hs'
    exact hI
  | dropChunk i =>
    rcases step_dropChunk_cases hst with ⟨c, hc, hs'⟩
    subst hs'
    exact hI
  | shrinkWin m =>
    rcases step_shrink_cases hst with ⟨_, hs'⟩
    subst hs'
    exact hI
  | closeSender =>
    rcases step_close_cases hst
      with ⟨_, ⟨_, hs'⟩ | ⟨l, q, a, _, hbuf, hs'⟩ | ⟨hra, _, hs'⟩⟩ <;> subst hs'
    · intro _ h
      cases h
    · intro _ h
      cases h
    · intro hra' h
      exact hI hra' h
  | resetSender e =>
    rcases step_reset_cases hst with ⟨_, hs'⟩
    subst hs'
    intro _ h
    cases h
  | dropReceiver =>
    rcases step_dropReceiver_cases hst with ⟨_, ⟨_, hs'⟩ | ⟨_, hs'⟩⟩ <;> subst hs' <;>
      intro hra' <;> cases hra'

theorem poll_chunk_total {E : Type} (buffer : Option (ChannelBuffer E)) (m cur : Nat)
    (h : buffer ≠ some ChannelBuffer.LostReceiver) :
    (ByteReceiver.poll_chunk buffer m cur).isSome := by
  unfold ByteReceiver.poll_chunk
  by_cases hm : m = 0
  · simp [hm]
  · match buffer with
    | none => simp [hm]
    | some (ChannelBuffer.Sending l q a) => by_cases hl : l = 0 <;> simp [hm, hl]
    | some (ChannelBuffer.SenderClosed l q) => by_cases hl : l = 0 <;> simp [hm, hl]
    | some (ChannelBuffer.SenderFailed e) => simp [hm]
    | some ChannelBuffer.LostReceiver => exact absurd rfl h

/-- **C10.** A live `ByteReceiver` never observes `LostReceiver`: on every
reachable state whose receiver is still alive the buffer cell does not hold
`LostReceiver` (only the receiver's own `Drop` writes it, setting the
receiver dead), so `poll_chunk`'s `unreachable!()` arm cannot execute — the
call always returns. -/
theorem C10_no_lost_receiver (E : Type) (n : Nat) (s : Sys E)
    (hreach : Reach AnyOp (Sys.start E n) s)
    (halive : s.receiverAlive = true) :
    s.buffer ≠ some ChannelBuffer.LostReceiver ∧
    ∀ m cur, (ByteReceiver.poll_chunk s.buffer m cur).isSome := by
  have hI : NoLostRecv s :=
    reach_invariant_closed (fun s op s' => nolost_step s op s') hreach
      (fun _ h => by cases h)
  exact ⟨hI halive, fun m cur => poll_chunk_total s.buffer m cur (hI halive)⟩

/-- Witness for C10 at a concrete reachable state. -/
theorem C10_witness :
    ((Sys.start Unit 5).buffer ≠ some ChannelBuffer.LostReceiver) ∧
    (ByteReceiver.poll_chunk (Sys.start Unit 5).buffer 2 0).isSome := by
  have h := C10_no_lost_receiver Unit 5 (Sys.start Unit 5) (Reach.refl _) rfl
  exact ⟨h.1, h.2 2 0⟩

/-- **C2.** For every `Window` state and every `n`: `advertise_increment n`
with `n = 0` is a no-op; with `0 < n ≤ underflow` it only decreases the
underflow by `n` and fires no waker; with `n > underflow` it adds
`n - underflow` to the pending increment, zeroes the underflow, leaves the
advertised amount unchanged, and takes and notifies the parked waker. -/
theorem C2_advertise_increment_cases (w : Window) (n : Nat) :
    (n = 0 → w.advertise_increment n = (w, none)) ∧
    (0 < n → n ≤ w.underflow →
      w.advertise_increment n = ({ w with underflow := w.underflow - n }, none)) ∧
    (w.underflow < n →
      w.advertise_increment n =
        ({ w with pending_increment := w.pending_increment + (n - w.underflow),
                  underflow := 0, blocked := none }, w.blocked)) := by
  refine ⟨fun h => by simp [Window.advertise_increment, h], fun h1 h2 => ?_, fun h => ?_⟩
  · have h0 : ¬ n = 0 := by omega
    simp [Window.advertise_increment, h0, h2]
  · have h0 : ¬ n = 0 := by omega
    have h2 : ¬ n ≤ w.underflow := by omega
    simp [Window.advertise_increment, h0, h2]

/-- Witness for C2 at a concrete window. -/
theorem C2_witness :
    Window.advertise_increment ⟨2, 5, 3, some 7⟩ 4 = (⟨3, 5, 0, none⟩, some 7) ∧
    Window.advertise_increment ⟨2, 5, 3, some 7⟩ 2 = (⟨2, 5, 1, some 7⟩, none) := by
  constructor
  · simpa using (C2_advertise_increment_cases ⟨2, 5, 3, some 7⟩ 4).2.2 (by decide)
  · simpa using (C2_advertise_increment_cases ⟨2, 5, 3, some 7⟩ 2).2.1 (by decide) (by decide)

/-- **C3.** `poll_increment`: with no pending increment it parks the current
waker (overwriting any prior) and returns NotReady; with pending `p > 0` and
`underflow < p` it returns Ready(k), `k = p - underflow > 0`, zeroing the
underflow and adding `k` to advertised; with `underflow ≥ p` it subtracts `p`
from the underflow and re-parks, returning NotReady. Consequently every
`Ready(k)` surfaced by `WindowAdvertiser::poll` has `k > 0`. -/
theorem C3_poll_increment_cases :
    (∀ (w : Window) (cur : Waker),
      (w.pending_increment = 0 →
        w.poll_increment cur = ({ w with blocked := some cur }, none)) ∧
      (0 < w.pending_increment → w.underflow < w.pending_increment →
        w.poll_increment cur =
          ({ w with pending_increment := 0,
                    advertised := w.advertised + (w.pending_increment - w.underflow),
                    underflow := 0 },
           some (w.pending_increment - w.underflow)) ∧
        0 < w.pending_increment - w.underflow) ∧
      (0 < w.pending_increment → w.pending_increment ≤ w.underflow →
        w.poll_increment cur =
          ({ w with pending_increment := 0,
                    underflow := w.underflow - w.pending_increment,
                    blocked := some cur }, none))) ∧
    (∀ (window : Option Window) (orphaned : Bool) (cur : Waker) (k : Nat)
       (rest : Option Window),
      WindowAdvertiser.poll window orphaned cur = (AdvPoll.ready k, rest) → 0 < k) := by
  constructor
  · intro w cur
    refine ⟨fun h0 => ?_, fun h0 h1 => ?_, fun h0 h1 => ?_⟩
    · unfold Window.poll_increment
      rw [apply_increment_of_zero h0]
    · unfold Window.poll_increment
      rw [apply_increment_of_lt (by omega) h1]
      exact ⟨rfl, by omega⟩
    · unfold Window.poll_increment
      rw [apply_increment_of_ge (by omega) h1]
  · intro window orphaned cur k rest h
    cases window with
    | none => simp [WindowAdvertiser.poll] at h
    | some w =>
      rcases hp : w.poll_increment cur with ⟨w', r⟩
      cases r with
      | some incr =>
        simp [WindowAdvertiser.poll, hp] at h
        exact h.1 ▸ poll_increment_ready_pos hp
      | none =>
        by_cases ho : orphaned <;> simp [WindowAdvertiser.poll, hp, ho] at h

/-- Witness for C3 at concrete inputs. -/
theorem C3_witness :
    Window.poll_increment ⟨0, 1, 2, none⟩ 9 = (⟨0, 1, 2, some 9⟩, none) ∧
    Window.poll_increment ⟨3, 1, 5, none⟩ 9 = (⟨0, 1, 2, some 9⟩, none) ∧
    0 < 4 := by
  refine ⟨?_, ?_, ?_⟩
  · exact (C3_poll_increment_cases.1 ⟨0, 1, 2, none⟩ 9).1 (by decide)
  · exact (C3_poll_increment_cases.1 ⟨3, 1, 5, none⟩ 9).2.2 (by decide) (by decide)
  · exact C3_poll_increment_cases.2 (some ⟨5, 0, 1, none⟩) false 9 4 (some ⟨0, 4, 0, none⟩)
      (by decide)

/-- **C4 (code bug).** Evaluating `Chunk::advance` at its failing inputs. A
`One` chunk of its full length: the source's `drop(bytes)` drops a `&mut`
reference, so `advance(2)` on a 2-byte chunk leaves `remaining() = 2` while
still handing 2 credits to the window, and the subsequent drop hands 2 more —
4 credits over the lifetime of a 2-byte chunk. A `Many` chunk advanced into
the middle of a segment keeps the consumed first byte `[1]` and discards the
unread tail `[2, 3]` (`split_to`'s two halves are swapped). -/
theorem C4_advance_bug_eval :
    Chunk.advance ⟨ChunkBytes.One [7, 7], true⟩ 2 =
      some (⟨ChunkBytes.One [7, 7], true⟩, 2) ∧
    ((Chunk.advance ⟨ChunkBytes.One [7, 7], true⟩ 2).map fun p => p.1.len) = some 2 ∧
    ((Chunk.advance ⟨ChunkBytes.One [7, 7], true⟩ 2).map fun p => p.2 + p.1.dropCredit)
      = some 4 ∧
    Chunk.advance ⟨ChunkBytes.Many 5 [[1, 2, 3], [4, 5]], true⟩ 1 =
      some (⟨ChunkBytes.Many 4 [[1], [4, 5]], true⟩, 1) := by
  decide

/-- **C9 (counterexample).** `poll_chunk(0)` returns `chunk::empty()`, and in
this final revision `chunk::empty()` carries **no** weak window handle,
contrary to the claim. -/
theorem C9_counterexample :
    ByteReceiver.poll_chunk (some (ChannelBuffer.default Unit)) 0 0 =
      some (PollChunk.readyChunk Chunk.empty, some (ChannelBuffer.default Unit)) ∧
    ¬ Chunk.empty.window = true := by
  decide

/-- **C9 (amended).** For every receiver state, `poll_chunk(0)` immediately
returns `Ready(Some(c))` with `c` the empty chunk (`remaining() = 0`), which
carries no window handle; `advance(0)` on it is still well-defined (a no-op),
and the buffer state is left unchanged. -/
theorem C9_poll_zero (E : Type) (buffer : Option (ChannelBuffer E)) (cur : Waker) :
    ByteReceiver.poll_chunk buffer 0 cur =
      some (PollChunk.readyChunk Chunk.empty, buffer) ∧
    Chunk.empty.len = 0 ∧
    Chunk.empty.window = false ∧
    Chunk.advance Chunk.empty 0 = some (Chunk.empty, 0) := by
  exact ⟨by simp [ByteReceiver.poll_chunk], by decide, by decide, by decide⟩

end ByteChannel
